import Mathlib

/-!
Verification development for the `uap_podcast` repository.

The Python sources are shallowly embedded as executable Lean definitions:

* strings are modelled as `String` / `List Char` (the relevant inputs are
  ASCII, so Python's Unicode-aware character classes are modelled by their
  ASCII behaviour);
* the specific regular-expression substitutions used by the code are
  modelled by dedicated deterministic scanners (each of the regexes used by
  the code allows no observable backtracking, which is argued in the
  comment of the corresponding scanner);
* the external model call and the speech synthesis call are modelled as
  oracles (functions supplied as parameters), the invocation counter of
  `llm_safe` selecting the outcome of each successive call;
* `random.random() < p` coin flips and `random.choice` / `random.randint`
  draws are modelled as explicit Boolean / index / integer parameters, so
  that theorems quantify over every behaviour of the random source;
* Python floats that only flow through `min` / `max` / `+` / `-` with small
  decimal constants are modelled as rationals (ℚ); no claim depends on
  float rounding.
-/

namespace Podcast

/-! ## Character classes (ASCII model of Python's `\s`, `\w` and the
markdown emphasis class `[`*_#>]` of `ensure_complete_sentence`). -/

/-- The character class `[`*_#>]` stripped by `ensure_complete_sentence`
(`podcast_engine.py` line 49 / `Models_podcast.py` line 72). -/
def isMark (c : Char) : Bool :=
  c = '`' || c = '*' || c = '_' || c = '#' || c = '>'

/-- ASCII model of Python's `\s` / `str.strip()` whitespace. -/
def isWs (c : Char) : Bool :=
  c = ' ' || c = '\t' || c = '\n' || c = '\r' || c = Char.ofNat 11 || c = Char.ofNat 12

/-- ASCII model of Python's `\w` (regex word character). -/
def isWordChar (c : Char) : Bool :=
  ('a' ≤ c && c ≤ 'z') || ('A' ≤ c && c ≤ 'Z') || ('0' ≤ c && c ≤ '9') || c = '_'

/-- Removal of trailing whitespace (the right half of Python `str.strip()`),
written structurally: a character is kept unless it is whitespace and
everything after it is also stripped away. -/
def rstrip : List Char → List Char
  | [] => []
  | c :: cs =>
    let r := rstrip cs
    if r = [] && isWs c then [] else c :: r

/-- Python `str.strip()` on a character list: drop leading whitespace, then
trailing whitespace. -/
def pyStrip (l : List Char) : List Char :=
  rstrip (l.dropWhile isWs)

/-! ## The function `ensure_complete_sentence` (`podcast_engine.py` 47–55,
`Models_podcast.py` 70–76, `Tools.py` 17–26 — the three copies are
textually identical).

The regex `re.sub(r'[`*_#>]+', ' ', text)` replaces every maximal run of
emphasis-class characters by a single space.  `repMarksAux` is that
substitution as a state machine (`inRun` = currently inside such a run). -/

def repMarksAux : Bool → List Char → List Char
  | _, [] => []
  | inRun, c :: cs =>
    if isMark c then
      (if inRun then repMarksAux true cs else ' ' :: repMarksAux true cs)
    else c :: repMarksAux false cs

/-- Pending state of the whitespace-collapsing scanner: no pending
whitespace, exactly one pending whitespace character (kept verbatim, since
`\s{2,}` does not match runs of length 1), or two-or-more (replaced by a
single space). -/
inductive WsPend
  | empty
  | single (c : Char)
  | multi
deriving DecidableEq

def flushPend : WsPend → List Char
  | .empty => []
  | .single c => [c]
  | .multi => [' ']

def bumpPend : WsPend → Char → WsPend
  | .empty, c => .single c
  | .single _, _ => .multi
  | .multi, _ => .multi

/-- The substitution `re.sub(r'\s{2,}', ' ', t)`: every maximal whitespace
run of length ≥ 2 becomes one space, single whitespace characters are kept
as they are. -/
def collWsAux : WsPend → List Char → List Char
  | pend, [] => flushPend pend
  | pend, c :: cs =>
    if isWs c then collWsAux (bumpPend pend c) cs
    else flushPend pend ++ c :: collWsAux .empty cs

/-- Terminal sentence punctuation: period, exclamation mark, question mark. -/
def isTerminalPunct (c : Char) : Bool :=
  c = '.' || c = '!' || c = '?'

/-- The final step of `ensure_complete_sentence`:
append a period unless the text is empty or already ends in terminal punctuation. -/
def finishDot (t : List Char) : List Char :=
  match t.getLast? with
  | some c => if isTerminalPunct c then t else t ++ ['.']
  | none => t

/-- Embedding of `ensure_complete_sentence` on character lists: strip emphasis runs to a
space, `strip()`, collapse whitespace runs, then append `'.'` when the
result is non-empty and does not already end in terminal punctuation. -/
def ensureCompleteL (l : List Char) : List Char :=
  finishDot (collWsAux .empty (pyStrip (repMarksAux false l)))

/-- Embedding of `ensure_complete_sentence` (`podcast_engine.py` lines 47–55). -/
def ensure_complete_sentence (s : String) : String :=
  ⟨ensureCompleteL s.data⟩

/-- Whether a string ends in `'.'`, `'!'` or `'?'`. -/
def endsInTerminal (s : String) : Bool :=
  match s.data.getLast? with
  | some c => isTerminalPunct c
  | none => false

/-! ### Normal-form predicates for the sentence pipeline (used to state the
idempotence argument). -/

/-- No emphasis-class character occurs in `l`. -/
def noMarks (l : List Char) : Prop := ∀ c ∈ l, isMark c = false

/-- The head of `l`, if any, is not whitespace. -/
def headNotWs (l : List Char) : Prop := ∀ c, l.head? = some c → isWs c = false

/-- The last element of `l`, if any, is not whitespace. -/
def lastNotWs (l : List Char) : Prop := ∀ c, l.getLast? = some c → isWs c = false

/-- No two adjacent whitespace characters occur in `l` (so `\s{2,}` has no
match in `l`). -/
def noWsRunB : List Char → Bool
  | [] => true
  | [_] => true
  | a :: b :: t => !(isWs a && isWs b) && noWsRunB (b :: t)

/-! ## The function `_looks_ok` (`podcast_engine.py` line 57, `Models_podcast.py` 61–68) -/

/-- Python `str.isupper()` (ASCII model): at least one cased character and
no lowercase character. -/
def pyIsUpper (l : List Char) : Bool :=
  l.any (fun c => c.isUpper || c.isLower) && l.all (fun c => !c.isLower)

/-- Substring test (used for `re.search(r'http[s]?://', text)`, which is
equivalent to containing `http://` or `https://`). -/
def hasSubstr (pat : List Char) : List Char → Bool
  | [] => pat.isPrefixOf ([] : List Char)
  | c :: cs => pat.isPrefixOf (c :: cs) || hasSubstr pat cs

/-- Embedding of `_looks_ok`: non-empty, stripped length ≥ 8, at most 3 periods, not
fully upper-case, no URL-like substring. -/
def looks_ok (s : String) : Bool :=
  !s.data.isEmpty && decide (8 ≤ (pyStrip s.data).length)
    && decide (s.data.count '.' ≤ 3) && !pyIsUpper s.data
    && !(hasSubstr "http://".data s.data || hasSubstr "https://".data s.data)

/-! ## The function `_soften` (`podcast_engine.py` 38–45).

Each `re.sub` there replaces a word-bounded literal (with a two-way case
alternation on the first letter) by a fixed phrase; the two alternatives of
each pattern start with different letters, so at most one can match at a
position and the match is deterministic.  The trailing `str.replace` calls
are plain (unbounded) literal replacements. -/

/-- Left side of `\b` before a pattern starting with a word character:
the previous character (if any) must not be a word character. -/
def leftBoundary (prev : Option Char) : Bool :=
  match prev with
  | none => true
  | some c => !isWordChar c

/-- Right side of `\b` after a pattern ending with a word character:
the next character (if any) must not be a word character. -/
def rightBoundary (l : List Char) : Bool :=
  match l.head? with
  | none => true
  | some c => !isWordChar c

/-- First alternative that matches at this position, in alternation order. -/
def findAlt (alts : List (List Char)) (l : List Char) : Option (List Char) :=
  match alts with
  | [] => none
  | a :: rest => if a.isPrefixOf l then some a else findAlt rest l

/-- Embedding of `re.sub` of a word-bounded literal alternation: scan left to right;
at a left word boundary, if an alternative matches and is followed by a
right word boundary, emit the replacement and continue after the match
(the character preceding the continuation point is the last character of
the matched text).  Fuel is one unit per scanned position. -/
def subLitBAux (alts : List (List Char)) (repl : List Char) :
    Nat → Option Char → List Char → List Char
  | 0, _, l => l
  | _ + 1, _, [] => []
  | fuel + 1, prev, c :: cs =>
    match (if leftBoundary prev then findAlt alts (c :: cs) else none) with
    | some a =>
      if rightBoundary ((c :: cs).drop a.length) then
        repl ++ subLitBAux alts repl fuel a.getLast? ((c :: cs).drop a.length)
      else c :: subLitBAux alts repl fuel (some c) cs
    | none => c :: subLitBAux alts repl fuel (some c) cs

def subLitB (alts : List String) (repl : String) (s : String) : String :=
  ⟨subLitBAux (alts.map String.data) repl.data (s.data.length + 1) none s.data⟩

/-- Python `str.replace`: plain left-to-right non-overlapping literal
replacement. -/
def replaceAllAux (pat repl : List Char) : Nat → List Char → List Char
  | 0, l => l
  | _ + 1, [] => []
  | fuel + 1, c :: cs =>
    if pat.isPrefixOf (c :: cs) then
      repl ++ replaceAllAux pat repl fuel ((c :: cs).drop pat.length)
    else c :: replaceAllAux pat repl fuel cs

def replaceAll (pat repl s : String) : String :=
  ⟨replaceAllAux pat.data repl.data (s.data.length + 1) s.data⟩

/-- The word `don't` with an upper-case `D` (spelled with `Char.ofNat 39`
for the apostrophe). -/
def dontUpper : String := ⟨['D', 'o', 'n', Char.ofNat 39, 't']⟩

/-- The word `don't` with a lower-case `d`. -/
def dontLower : String := ⟨['d', 'o', 'n', Char.ofNat 39, 't']⟩

/-- Embedding of `_soften` (`podcast_engine.py` 38–45): four word-bounded substitutions
followed by two plain replacements. -/
def soften (s : String) : String :=
  let t1 := subLitB ["Sole factual source", "sole factual source"] "primary context" s
  let t2 := subLitB ["Do not", "do not"] "please avoid" t1
  let t3 := subLitB [dontUpper, dontLower] "please avoid" t2
  let t4 := subLitB ["Ignore", "ignore"] "do not rely on" t3
  replaceAll "Debate" "Discussion" (replaceAll "debate" "discussion" t4)

/-! ## The function `llm_safe` (`podcast_engine.py` 60–76, `Models_podcast.py` 79–115;
the two copies differ only in the wording of the two minimal prompts —
the embedding follows `podcast_engine.py`).

The external model is an oracle `call : Nat → LMCall → LMOutcome` mapping
the index of the invocation (0-based, counting every `_llm_sync` call made
by this `llm_safe` invocation) and the parameters passed to `_llm_sync` to
the outcome of that call.  `BadRequestError` is the policy-rejection error
kind; every other exception of the Python client is a transport failure.
Python floats are modelled as rationals, `max_tokens` as `Nat` (the
callers only pass positive values, and `max(80, ·)` makes Python's
negative intermediate results agree with truncated subtraction). -/

/-- Parameters of one `_llm_sync` invocation. -/
structure LMCall where
  system : String
  user : String
  maxTokens : Nat
  temperature : ℚ
deriving DecidableEq

/-- Outcome of one `_llm_sync` invocation, chosen by the oracle. -/
inductive LMOutcome
  | ok (out : String)
  | badRequest
  | transport
deriving DecidableEq

/-- The error kinds `llm_safe` can raise to its caller. -/
inductive LMFailure
  | badRequest
  | transport
deriving DecidableEq

/-- The failure carried by an outcome, if any. -/
def failureOf : LMOutcome → Option LMFailure
  | .ok _ => none
  | .badRequest => some .badRequest
  | .transport => some .transport

def minimalSystem : String :=
  "You are a professional analyst; produce one safe, neutral sentence grounded in the provided context."

def minimalUser : String :=
  "Summarize cross-metric trends and propose one action in a single safe sentence."

def softSuffix : String :=
  " Always keep a professional, neutral tone and comply with safety policies."

/-- The parameters of the softened retry (`except BadRequestError` branch). -/
def softCall (system user : String) (maxTokens : Nat) (temperature : ℚ) : LMCall :=
  ⟨soften system ++ softSuffix, soften user,
    max 80 (maxTokens - 20), max (1/10 : ℚ) (temperature - 1/5)⟩

/-- The parameters of the final fixed minimal-prompt attempt. -/
def finalCall : LMCall := ⟨minimalSystem, minimalUser, 100, (1/5 : ℚ)⟩

/-- The `except BadRequestError` branch of `llm_safe`: softened retry, and
on any failure of it the fixed minimal-prompt attempt, whose errors
propagate.  `i` is the index of the next model invocation. -/
def llmSoftTier (call : Nat → LMCall → LMOutcome) (i : Nat) (system user : String)
    (maxTokens : Nat) (temperature : ℚ) : Except LMFailure String :=
  match call i (softCall system user maxTokens temperature) with
  | .ok out => .ok (ensure_complete_sentence out)
  | _ =>
    match call (i + 1) finalCall with
    | .ok out => .ok (ensure_complete_sentence out)
    | .badRequest => .error .badRequest
    | .transport => .error .transport

/-- The parameters of the acceptability retry (halved tokens with floor 80,
temperature raised by 0.1 with cap 0.8). -/
def retryCall (system user : String) (maxTokens : Nat) (temperature : ℚ) : LMCall :=
  ⟨system, user, max 80 (maxTokens / 2), min (4/5 : ℚ) (temperature + 1/10)⟩

/-- Embedding of `llm_safe` (`podcast_engine.py` 60–76).  Note that the `try` block
covers the first call and its acceptability retry, but the `except` clause
catches only `BadRequestError`: any other exception raised by either of
those calls propagates to the caller. -/
def llm_safe (call : Nat → LMCall → LMOutcome) (system user : String)
    (maxTokens : Nat) (temperature : ℚ) : Except LMFailure String :=
  match call 0 ⟨system, user, maxTokens, temperature⟩ with
  | .ok out =>
    if looks_ok out then .ok (ensure_complete_sentence out)
    else
      match call 1 (retryCall system user maxTokens temperature) with
      | .ok out2 => .ok (ensure_complete_sentence out2)
      | .badRequest => llmSoftTier call 2 system user maxTokens temperature
      | .transport => .error .transport
  | .badRequest => llmSoftTier call 1 system user maxTokens temperature
  | .transport => .error .transport

/-- An oracle whose very first call fails with a transport (non-policy)
error and whose every later call would succeed. -/
def oracleFirstTransport : Nat → LMCall → LMOutcome :=
  fun n _ => if n = 0 then .transport else .ok "All later attempts would succeed."

/-! ## The function `_clean_repetition` (`podcast_engine.py` 425–433, `Reco_tools.py`
189–194; identical).  Three `re.sub` calls:

1. `\b(Reco|Stat),\s+\1,?\s+` → `\1, `
2. `\b(\w+)\s+\1\b` → `\1`
3. `\b(Given that|If we|The safer read|The safer interpretation),\s+\1` → `\1`

In each pattern every `\s+` is immediately followed by an element that
must start with a non-whitespace character (or is the end of the pattern),
and every `(\w+)` is immediately followed by `\s+`, so greedy matching
with backtracking reduces to taking every repetition maximal: the matchers
below are deterministic.  A matcher returns the replacement text, the last
character of the matched span (the character preceding the scan
continuation point, needed for the next `\b` test) and the rest of the
input. -/

/-- Matcher for `\b(Reco|Stat),\s+\1,?\s+` (replacement `\1, `). -/
def matchDupName (prev : Option Char) (l : List Char) :
    Option (List Char × Char × List Char) :=
  if leftBoundary prev then
    match findAlt ["Reco".data, "Stat".data] l with
    | some w =>
      match l.drop w.length with
      | ',' :: r2 =>
        if (r2.takeWhile isWs).isEmpty then none
        else
          if w.isPrefixOf (r2.dropWhile isWs) then
            match (r2.dropWhile isWs).drop w.length with
            | ',' :: r5 =>
              if (r5.takeWhile isWs).isEmpty then none
              else some (w ++ [',', ' '],
                ((r5.takeWhile isWs).getLast?).getD ' ', r5.dropWhile isWs)
            | r4 =>
              if (r4.takeWhile isWs).isEmpty then none
              else some (w ++ [',', ' '],
                ((r4.takeWhile isWs).getLast?).getD ' ', r4.dropWhile isWs)
          else none
      | _ => none
    | none => none
  else none

/-- Matcher for `\b(\w+)\s+\1\b` (replacement `\1`). -/
def matchDupWord (prev : Option Char) (l : List Char) :
    Option (List Char × Char × List Char) :=
  if leftBoundary prev then
    if (l.takeWhile isWordChar).isEmpty then none
    else
      if (((l.dropWhile isWordChar)).takeWhile isWs).isEmpty then none
      else
        if (l.takeWhile isWordChar).isPrefixOf
            ((l.dropWhile isWordChar).dropWhile isWs) then
          if rightBoundary (((l.dropWhile isWordChar).dropWhile isWs).drop
              (l.takeWhile isWordChar).length) then
            some (l.takeWhile isWordChar, ((l.takeWhile isWordChar).getLast?).getD ' ',
              ((l.dropWhile isWordChar).dropWhile isWs).drop (l.takeWhile isWordChar).length)
          else none
        else none
  else none

/-- The doubled opener phrases of the third pattern, in alternation order. -/
def openerPhrases : List (List Char) :=
  ["Given that".data, "If we".data, "The safer read".data, "The safer interpretation".data]

/-- Matcher for `\b(Given that|If we|The safer read|The safer
interpretation),\s+\1` (replacement `\1`). -/
def matchDupPhrase (prev : Option Char) (l : List Char) :
    Option (List Char × Char × List Char) :=
  if leftBoundary prev then
    match findAlt openerPhrases l with
    | some w =>
      match l.drop w.length with
      | ',' :: r2 =>
        if (r2.takeWhile isWs).isEmpty then none
        else
          if w.isPrefixOf (r2.dropWhile isWs) then
            some (w, (w.getLast?).getD ' ', (r2.dropWhile isWs).drop w.length)
          else none
      | _ => none
    | none => none
  else none

/-- Embedding of `re.sub` as a left-to-right scan with a deterministic matcher: on a
match, emit the replacement and continue after the matched span; otherwise
emit one character and advance.  Fuel is one unit per position. -/
def regexSubScan
    (matcher : Option Char → List Char → Option (List Char × Char × List Char)) :
    Nat → Option Char → List Char → List Char
  | 0, _, l => l
  | _ + 1, _, [] => []
  | fuel + 1, prev, c :: cs =>
    match matcher prev (c :: cs) with
    | some (rep, lastc, rest) => rep ++ regexSubScan matcher fuel (some lastc) rest
    | none => c :: regexSubScan matcher fuel (some c) cs

/-- Embedding of `_clean_repetition` (`podcast_engine.py` 425–433). -/
def clean_repetition (s : String) : String :=
  let t1 := regexSubScan matchDupName (s.data.length + 1) none s.data
  let t2 := regexSubScan matchDupWord (t1.length + 1) none t1
  ⟨regexSubScan matchDupPhrase (t2.length + 1) none t2⟩

/-! ## The function `vary_opening` and its helpers (`podcast_engine.py` 295–329,
`Reco_tools.py` 17–76; identical).

The `FORBIDDEN` / `OPENERS` tables have exactly the keys `"RECO"` and
`"STAT"` (calling `vary_opening` with any other role would raise a
`KeyError`), so the role is a two-element type here.  Python iterates the
forbidden *set* sorted by decreasing length; the set iteration order that
seeds the sort is unspecified, but entries of equal length start with
different words and the `startswith(w + " ") or low == w` tests of
equal-length entries are mutually exclusive, so any tie order gives the
same result — the model sorts with a deterministic insertion sort.
`random.random() < 0.4` is the Boolean parameter `coin`; each
`random.choice(pool)` is modelled as `pool[i % len(pool)]` for an
arbitrary `i`, which ranges over exactly the choices the random source can
make. -/

inductive Duo
  | RECO
  | STAT
deriving DecidableEq

def FORBIDDEN : Duo → List String
  | .RECO => ["absolutely", "well", "look", "sure", "okay", "so", "listen", "hey",
      "you know", "hold on", "right", "great point"]
  | .STAT => ["hold on", "actually", "well", "look", "so", "right", "okay",
      "absolutely", "you know", "listen", "wait"]

def OPENERS : Duo → List String
  | .RECO => ["Given that", "Looking at this", "From that signal", "On those figures",
      "Based on the last month", "If we take the trend", "Against YTD context",
      "From a planning view"]
  | .STAT => ["Data suggests", "From the integrity check", "The safer interpretation",
      "Statistically speaking", "Given the variance profile", "From the control limits",
      "Relative to seasonality", "From the timestamp audit"]

/-- Insert into a length-descending list (used for
`sorted(FORBIDDEN[role], key=lambda x: -len(x))`). -/
def insertByLen (x : String) : List String → List String
  | [] => [x]
  | y :: ys => if y.length ≤ x.length then x :: y :: ys else y :: insertByLen x ys

def sortLenDesc : List String → List String
  | [] => []
  | x :: xs => insertByLen x (sortLenDesc xs)

/-- ASCII lower-casing (Python `str.lower()` on the ASCII inputs used
here). -/
def lowerData (l : List Char) : List Char := l.map Char.toLower

/-- The characters stripped by `.lstrip(" ,.-–—")` (space, comma, period,
hyphen, en dash U+2013, em dash U+2014). -/
def lstripChars : List Char := [' ', ',', '.', '-', Char.ofNat 8211, Char.ofNat 8212]

def stripForbiddenGo (textData low : List Char) : List String → Option (List Char)
  | [] => none
  | w :: ws =>
    if (w.data ++ [' ']).isPrefixOf low || decide (low = w.data) then
      some ((textData.drop w.length).dropWhile (fun c => lstripChars.contains c))
    else stripForbiddenGo textData low ws

/-- Embedding of `strip_forbidden` (`podcast_engine.py` 311–316): test the lower-cased
stripped text against each forbidden opener, longest first; on a hit,
slice the *original* text and `lstrip` punctuation. -/
def strip_forbidden (text : String) (role : Duo) : String :=
  match stripForbiddenGo text.data (lowerData (pyStrip text.data))
      (sortLenDesc (FORBIDDEN role)) with
  | some t => ⟨t⟩
  | none => text

/-- Embedding of `(t.split()[:1] or [""])[0].strip(",. ").lower()`: the first
whitespace-separated token, stripped of commas/periods/spaces at both
ends, lower-cased. -/
def firstWordNorm (t : List Char) : List Char :=
  let tok := (t.dropWhile isWs).takeWhile (fun c => !isWs c)
  let strippable : List Char := [',', '.', ' ']
  let a := tok.dropWhile (fun c => strippable.contains c)
  lowerData ((a.reverse.dropWhile (fun c => strippable.contains c)).reverse)

/-- Embedding of `vary_opening` (`podcast_engine.py` 318–329).  `last` is the
`last_open` dictionary (the returned map is its state after the call),
`coin` the outcome of `random.random() < 0.4`, `i` and `j` the draws of
the two `random.choice` calls. -/
def vary_opening (text : String) (role : Duo) (last : Duo → Option String)
    (coin : Bool) (i j : Nat) : String × (Duo → Option String) :=
  let t := strip_forbidden text role
  let first : String := ⟨firstWordNorm t.data⟩
  if (FORBIDDEN role).contains first || first = "" || coin then
    let cand := (OPENERS role).getD (i % (OPENERS role).length) ""
    let cand :=
      if last role = some cand then
        match (OPENERS role).filter (fun c => c ≠ cand) with
        | [] => cand
        | p => p.getD (j % p.length) ""
      else cand
    (cand ++ ", " ++ t, fun r => if r = role then some cand else last r)
  else (t, last)

/-! ## The session script (`run_podcast`, `podcast_engine.py` 648–744).

`run_podcast` builds `script_lines` by appending, in this order: the three
fixed introductions, the generated topic introduction, then per loop
iteration one Reco line and one Stat line, and finally the fixed outro —
each as `"Agent X:" + text` (note: no space after the colon).  The
transcript artifact is `"\n".join(script_lines)`.  The text of each
generated line is the result of the model call plus the polish pipeline
(`vary_opening`, `_add_conversation_dynamics`, `_add_emotional_reactions`,
`_clean_repetition`, `ensure_complete_response`), which this model
abstracts as oracle functions `nexusTopicIntro`, `recoResponse i`,
`statResponse i`: the claims settled against it concern only the number,
order and label format of the lines, which do not depend on the generated
text.  The audio-segment list is built in the same order with one `synth`
call per line. -/

/-- The apostrophe, kept out of string literals. -/
def apos : String := ⟨[Char.ofNat 39]⟩

inductive Persona
  | NEXUS
  | RECO
  | STAT
deriving DecidableEq

def personaLabel : Persona → String
  | .NEXUS => "Agent Nexus"
  | .RECO => "Agent Reco"
  | .STAT => "Agent Stat"

/-- Embedding of `NEXUS_INTRO` (`podcast_engine.py` 582–585), verbatim. -/
def NEXUS_INTRO : String :=
  "Hello and welcome to Optum MultiAgent Conversation, where intelligence meets collaboration. I" ++ apos ++ "m Agent Nexus, your host and guide through today" ++ apos ++ "s episode. In this podcast, we bring together specialized agents to explore the world of metrics, data, and decision-making. Let" ++ apos ++ "s meet today" ++ apos ++ "s experts."

/-- Embedding of `RECO_INTRO` (`podcast_engine.py` 586–588), verbatim. -/
def RECO_INTRO : String :=
  "Hi everyone, I" ++ apos ++ "m Agent Reco, your go-to for metric recommendations. I specialize in identifying the most impactful metrics for performance tracking, optimization, and strategic alignment."

/-- Embedding of `STAT_INTRO` (`podcast_engine.py` 589–591), verbatim. -/
def STAT_INTRO : String :=
  "Hello! I" ++ apos ++ "m Agent Stat, focused on metric data. I dive deep into data sources, trends, and statistical integrity to ensure our metrics are not just smart—but solid."

/-- Embedding of `NEXUS_OUTRO` (`podcast_engine.py` 594–600), verbatim. -/
def NEXUS_OUTRO : String :=
  "And that brings us to the end of today" ++ apos ++ "s episode of Optum MultiAgent Conversation. A big thank you to Agent Reco for guiding us through the art of metric recommendations, and to Agent Stat for grounding us in the power of metric data. Your insights today have not only informed but inspired. Together, you" ++ apos ++ "ve shown how collaboration between agents can unlock deeper understanding and smarter decisions. To our listeners—thank you for tuning in. Stay curious, stay data-driven, and we" ++ apos ++ "ll see you next time on Optum MultiAgent Conversation. Until then, this is Agent Nexus, signing off."

/-- The `script_lines` list built by one `run_podcast` session with `turns`
round-robin pairs, as a function of the generated texts. -/
def runPodcastScript (turns : Nat) (nexusTopicIntro : String)
    (recoResponse statResponse : Nat → String) : List String :=
  ["Agent Nexus:" ++ NEXUS_INTRO, "Agent Reco:" ++ RECO_INTRO,
   "Agent Stat:" ++ STAT_INTRO, "Agent Nexus:" ++ nexusTopicIntro]
  ++ (List.range turns).flatMap
      (fun i => ["Agent Reco:" ++ recoResponse i, "Agent Stat:" ++ statResponse i])
  ++ ["Agent Nexus:" ++ NEXUS_OUTRO]

/-- The same session as a list of (speaker, text) turns, used to state the
line-format property. -/
def scriptTurns (turns : Nat) (nexusTopicIntro : String)
    (recoResponse statResponse : Nat → String) : List (Persona × String) :=
  [(.NEXUS, NEXUS_INTRO), (.RECO, RECO_INTRO), (.STAT, STAT_INTRO),
   (.NEXUS, nexusTopicIntro)]
  ++ (List.range turns).flatMap
      (fun i => [(.RECO, recoResponse i), (.STAT, statResponse i)])
  ++ [(.NEXUS, NEXUS_OUTRO)]

/-! ## The function `write_master` (`podcast_engine.py` 212–239, `Models_audio.py`
168–199; identical up to the timestamp format of the fallback path).

The WAV files are modelled by their header fields and sample payload; the
file system by a finite map from paths to files.  `write_master` writes
the concatenation into a fresh temporary file and only renames it onto
`out_path` after every segment was read successfully; on any exception the
temporary file is removed and nothing else was touched, so the resulting
file system is unchanged — the model returns the result together with the
file system after the call.  The `PermissionError` fallback (writing to a
timestamped alternate path when the destination is locked) is not
modelled: `os.replace` is assumed to succeed. -/

structure WavFile where
  frameRate : Nat
  nchannels : Nat
  sampWidth : Nat
  frames : List Nat
deriving DecidableEq

/-- The segment-reading loop of `write_master`: read each segment in
order, fail on a missing file or on the first segment whose
`(framerate, nchannels, sampwidth)` differs from `(rate, 1, 2)`, and
otherwise concatenate the frame payloads. -/
def collectFrames (fs : String → Option WavFile) (rate : Nat) :
    List String → Except String (List Nat)
  | [] => .ok []
  | seg :: rest =>
    match fs seg with
    | none => .error ("Missing segment file: " ++ seg)
    | some w =>
      if (w.frameRate, w.nchannels, w.sampWidth) ≠ (rate, 1, 2) then
        .error ("Segment format mismatch: " ++ seg)
      else
        match collectFrames fs rate rest with
        | .ok frames => .ok (w.frames ++ frames)
        | .error e => .error e

def updateFs (fs : String → Option WavFile) (p : String) (w : WavFile) :
    String → Option WavFile :=
  fun q => if q = p then some w else fs q

/-- Embedding of `write_master` (`podcast_engine.py` 212–239): the result (final path,
or the error message of the raised exception) and the file system after
the call. -/
def write_master (fs : String → Option WavFile) (segments : List String)
    (outPath : String) (rate : Nat := 24000) :
    Except String String × (String → Option WavFile) :=
  match collectFrames fs rate segments with
  | .ok frames => (.ok outPath, updateFs fs outPath ⟨rate, 1, 2, frames⟩)
  | .error e => (.error e, fs)

/-- A segment whose file exists but whose sample format differs from the
required `(rate, 1, 2)`. -/
def isBadSegment (fs : String → Option WavFile) (rate : Nat) (seg : String) : Bool :=
  match fs seg with
  | some w => decide ((w.frameRate, w.nchannels, w.sampWidth) ≠ (rate, 1, 2))
  | none => false

/-- A two-file example file system: a conforming segment and one with a
different sample rate. -/
def wavFsExample : String → Option WavFile := fun p =>
  if p = "a.wav" then some ⟨24000, 1, 2, [1, 2, 3]⟩
  else if p = "b.wav" then some ⟨22050, 1, 2, [4, 5]⟩
  else none

/-! ## The function `text_to_ssml` and its helpers (`podcast_engine.py` 101–182).

The voice names are the `os.getenv` defaults.  `random.randint(-s, s)` of
`_jitter` is modelled by an integer parameter constrained to `[-s, s]` in
the theorems, covering every draw.  The regexes
`\b\d{3,}(\.\d+)?\b` and `\b-?\d+(\.\d+)?%\b` of `_emphasize_numbers`, and
the case-insensitive `\bHowever\b` / `\bBut\b` of `_clause_pauses`, are
deterministic after the backtracking analysis recorded at each matcher. -/

def voiceName : Persona → String
  | .NEXUS => "en-US-SaraNeural"
  | .RECO => "en-US-JennyNeural"
  | .STAT => "en-US-BrianNeural"

def styleOf : Persona → String
  | .NEXUS => "friendly"
  | .RECO => "cheerful"
  | .STAT => "serious"

/-- Embedding of `VOICE_PLAN[role]["base_pitch"]`. -/
def basePitchStr : Persona → String
  | .NEXUS => "+1%"
  | .RECO => "+2%"
  | .STAT => "-1%"

/-- Embedding of `VOICE_PLAN[role]["base_rate"]`. -/
def baseRateStr : Persona → String
  | .NEXUS => "-2%"
  | .RECO => "-3%"
  | .STAT => "-4%"

def digitsToNat (l : List Char) : Nat :=
  l.foldl (fun a c => a * 10 + (c.toNat - 48)) 0

/-- Embedding of `re.match(r'([+-]?\d+)%', pct.strip())` and `int` of the group:
an optional sign, digits, then `%`, anchored at the start (the rest of the
string is ignored). -/
def parsePct (l : List Char) : Option Int :=
  let l0 := pyStrip l
  let sgn : Int := match l0.head? with | some '-' => -1 | _ => 1
  let l1 := match l0.head? with
    | some '+' => l0.drop 1
    | some '-' => l0.drop 1
    | _ => l0
  let d := l1.takeWhile Char.isDigit
  if d.isEmpty then none
  else if (l1.drop d.length).head? = some '%' then some (sgn * digitsToNat d)
  else none

/-- Python `int(...)` on the strings arising here: optional sign then
digits, the whole string. -/
def parseIntAll (l : List Char) : Option Int :=
  let sgn : Int := match l.head? with | some '-' => -1 | _ => 1
  let l1 := match l.head? with
    | some '+' => l.drop 1
    | some '-' => l.drop 1
    | _ => l
  if l1.isEmpty then none
  else if l1.all Char.isDigit then some (sgn * digitsToNat l1) else none

/-- Embedding of `str.replace('%', '')`. -/
def removeChar (t : Char) (l : List Char) : List Char := l.filter (fun c => c ≠ t)

/-- Embedding of `_jitter` (`podcast_engine.py` 112–116) with the drawn jitter `j`. -/
def jitterPct (pct : String) (j : Int) : String :=
  toString ((parsePct pct.data).getD 0 + j) ++ "%"

/-- The surprise keywords of `_inflect` (`podcast_engine.py` line 150). -/
def surpriseWords : List String := ["surprising", "shocking", "unexpected", "dramatic"]

def hasSurprise (text : String) : Bool :=
  surpriseWords.any (fun w => hasSubstr w.data (lowerData text.data))

/-- Existence of a case-insensitive word-bounded occurrence of `w`
(lower-case) — `re.search(r'\bw\b', text, re.I)`. -/
def hasWordCIAux (w : List Char) : Nat → Option Char → List Char → Bool
  | 0, _, _ => false
  | _ + 1, _, [] => false
  | fuel + 1, prev, c :: cs =>
    (leftBoundary prev && decide (lowerData ((c :: cs).take w.length) = w)
      && rightBoundary ((c :: cs).drop w.length))
    || hasWordCIAux w fuel (some c) cs

def hasHoweverBut (text : String) : Bool :=
  hasWordCIAux "however".data (text.data.length + 1) none text.data ||
  hasWordCIAux "but".data (text.data.length + 1) none text.data

/-- Embedding of `_inflect` (`podcast_engine.py` 131–157) with the two drawn jitters:
returns `(pitch, rate)`.  The `try/except` around `int(...)` is the
`none` branch of the parse (never taken on the strings `_jitter`
produces). -/
def inflect (text : String) (role : Persona) (jp jr : Int) : String × String :=
  let pitch := jitterPct (basePitchStr role) jp
  let rate := jitterPct (baseRateStr role) jr
  let pitch :=
    if (pyStrip text.data).getLast? = some '?' then
      match parseIntAll (removeChar '%' pitch.data) with
      | some p => toString (p + 4) ++ "%"
      | none => "+4%"
    else if hasHoweverBut text then
      match parseIntAll (removeChar '%' pitch.data) with
      | some p => toString (p - 2) ++ "%"
      | none => "-2%"
    else if hasSurprise text then
      match parseIntAll (removeChar '%' pitch.data) with
      | some p => toString (p + 3) ++ "%"
      | none => "+3%"
    else pitch
  (pitch, rate)

/-- Matcher for `\b\d{3,}(\.\d+)?\b` wrapped in the emphasis tag.
Backtracking analysis: a shorter `\d{3,}` is always followed by a digit,
which fails both the optional group (which needs `.`) and the final `\b`;
a shorter `\d+` inside the group is followed by a digit, failing `\b`; so
the only fallback is dropping the optional group entirely, which succeeds
exactly when a `.` follows the integer digits. -/
def matchNum3 (prev : Option Char) (l : List Char) :
    Option (List Char × Char × List Char) :=
  if leftBoundary prev then
    let d := l.takeWhile Char.isDigit
    if d.length < 3 then none
    else
      match l.drop d.length with
      | '.' :: r2 =>
        let m := r2.takeWhile Char.isDigit
        if m.isEmpty then
          some ("<emphasis level=\"moderate\">".data ++ d ++ "</emphasis>".data,
            (d.getLast?).getD ' ', l.drop d.length)
        else
          if rightBoundary (r2.drop m.length) then
            some ("<emphasis level=\"moderate\">".data ++ d ++ '.' :: m
                ++ "</emphasis>".data,
              (m.getLast?).getD ' ', r2.drop m.length)
          else
            some ("<emphasis level=\"moderate\">".data ++ d ++ "</emphasis>".data,
              (d.getLast?).getD ' ', l.drop d.length)
      | r1 =>
        if rightBoundary r1 then
          some ("<emphasis level=\"moderate\">".data ++ d ++ "</emphasis>".data,
            (d.getLast?).getD ' ', r1)
        else none
  else none

/-- Matcher for `\b-?\d+(\.\d+)?%\b` wrapped in the emphasis tag.  The
leading `\b` sits before the non-word `-` when one is consumed, so it then
requires a *word* character before the match; the trailing `\b` sits after
the non-word `%`, so it requires a word character *after* the match (at
the end of the string it fails). -/
def matchPctTok (prev : Option Char) (l : List Char) :
    Option (List Char × Char × List Char) :=
  let neg : Bool := l.head? = some '-'
  let boundaryOk : Bool :=
    if neg then (match prev with | some c => isWordChar c | none => false)
    else leftBoundary prev
  if boundaryOk then
    let l1 := if neg then l.drop 1 else l
    let d := l1.takeWhile Char.isDigit
    if d.isEmpty then none
    else
      let afterInt := l1.drop d.length
      let fracM : List Char :=
        match afterInt with
        | '.' :: r2 => if (r2.takeWhile Char.isDigit).isEmpty then []
                       else '.' :: r2.takeWhile Char.isDigit
        | _ => []
      let afterFrac := if fracM.isEmpty then afterInt else afterInt.drop fracM.length
      match afterFrac with
      | '%' :: r3 =>
        match r3.head? with
        | some c2 =>
          if isWordChar c2 then
            some ("<emphasis level=\"moderate\">".data
                ++ (if neg then ['-'] else []) ++ d ++ fracM ++ ['%']
                ++ "</emphasis>".data, '%', r3)
          else none
        | none => none
      | _ => none
  else none

/-- Embedding of `_emphasize_numbers` (`podcast_engine.py` 118–122): the two
substitutions in order. -/
def emphasize_numbers (l : List Char) : List Char :=
  let t1 := regexSubScan matchNum3 (l.length + 1) none l
  regexSubScan matchPctTok (t1.length + 1) none t1

/-- Embedding of `re.sub(r'c\s', repl, ·)` for a literal character `c` followed by one
whitespace character. -/
def subCharWs (target : Char) (repl : List Char) : Nat → List Char → List Char
  | 0, l => l
  | _ + 1, [] => []
  | fuel + 1, c :: cs =>
    if c = target then
      match cs with
      | d :: rest =>
        if isWs d then repl ++ subCharWs target repl fuel rest
        else c :: subCharWs target repl fuel cs
      | [] => [c]
    else c :: subCharWs target repl fuel cs

/-- Embedding of `re.sub(r'\bw\b', repl, ·, flags=re.I)` for a literal word `w`
(lower-case). -/
def subWordCI (w repl : List Char) : Nat → Option Char → List Char → List Char
  | 0, _, l => l
  | _ + 1, _, [] => []
  | fuel + 1, prev, c :: cs =>
    if leftBoundary prev && decide (lowerData ((c :: cs).take w.length) = w)
        && rightBoundary ((c :: cs).drop w.length) then
      repl ++ subWordCI w repl fuel
        (some ((((c :: cs).take w.length).getLast?).getD c)) ((c :: cs).drop w.length)
    else c :: subWordCI w repl fuel (some c) cs

/-- Embedding of `_clause_pauses` (`podcast_engine.py` 124–129). -/
def clause_pauses (l : List Char) : List Char :=
  let t1 := subCharWs ',' ",<break time=\"220ms\"/> ".data (l.length + 1) l
  let t2 := subCharWs ';' ";<break time=\"260ms\"/> ".data (t1.length + 1) t1
  let t3 := subWordCI "however".data "However,<break time=\"220ms\"/>".data
    (t2.length + 1) none t2
  subWordCI "but".data "But,<break time=\"220ms\"/>".data (t3.length + 1) none t3

/-- Embedding of `_ssml` (`podcast_engine.py` 159–173), styled branch (every
`VOICE_PLAN` entry has a style, so `text_to_ssml` always takes it). -/
def ssmlStyled (voice style rate pitch inner : String) : String :=
  "<speak version=\"1.0\" xml:lang=\"en-US\" xmlns=\"http://www.w3.org/2001/10/synthesis\" xmlns:mstts=\"http://www.w3.org/2001/mstts\">\n    <voice name=\"" ++ voice
  ++ "\">\n        <mstts:express-as style=\"" ++ style
  ++ "\">\n            <prosody rate=\"" ++ rate ++ "\" pitch=\"" ++ pitch ++ "\">"
  ++ inner
  ++ "</prosody>\n        </mstts:express-as>\n    </voice>\n</speak>"

/-- Embedding of `text_to_ssml` (`podcast_engine.py` 175–182) with the two pitch/rate
jitter draws. -/
def text_to_ssml (text : String) (role : Persona) (jp jr : Int) : String :=
  let t := emphasize_numbers (pyStrip text.data)
  let t2 := clause_pauses t
  let inner : String := (⟨t2⟩ : String) ++ "<break time=\"320ms\"/>"
  let pr := inflect text role jp jr
  ssmlStyled (voiceName role) (styleOf role) pr.2 pr.1 inner

/-- The conditional pitch adjustment of `_inflect`, by precedence. -/
def inflectAdj (text : String) : Int :=
  if (pyStrip text.data).getLast? = some '?' then 4
  else if hasHoweverBut text then -2
  else if hasSurprise text then 3
  else 0

def basePitchInt : Persona → Int
  | .NEXUS => 1
  | .RECO => 2
  | .STAT => -1

def baseRateInt : Persona → Int
  | .NEXUS => -2
  | .RECO => -3
  | .STAT => -4

/-- Number of (possibly overlapping) occurrences of `pat` in a text. -/
def countOccur (pat : List Char) : List Char → Nat
  | [] => 0
  | c :: cs => (if pat.isPrefixOf (c :: cs) then 1 else 0) + countOccur pat cs

/-- A text that itself contains a complete voice element. -/
def voiceInjText : String := "<voice name=\"x\">hi</voice>"

/-! ### End of definitions for the sentence pipeline (more definitions are
added below; all theorems are kept after the last definition). -/

end Podcast

namespace Podcast

/-! ## Theorems -/

example : clean_repetition "a a a" = "a a" := by decide
example : clean_repetition "a a" = "a" := by decide
example : clean_repetition "Reco, Reco, this is is a test" = "Reco, this is a test" := by decide
example : clean_repetition "Given that, Given that we see" = "Given that we see" := by decide
example : clean_repetition "banana and bandana" = "banana and bandana" := by decide

example : soften "Do not ignore the debate" = "please avoid do not rely on the discussion" := by
  decide
example : soften "ignored" = "ignored" := by decide
example : looks_ok "This is a decent sentence" = true := by decide
example : looks_ok "short" = false := by decide
example : looks_ok "see http://x.y for details" = false := by decide
example : llm_safe (fun _ _ => .ok "This is a decent sentence") "a" "b" 100 (1/2) =
    .ok "This is a decent sentence." := rfl

example : ensure_complete_sentence "hello  world" = "hello world." := by decide
example : ensure_complete_sentence "**bold** text!" = "bold text!" := by decide
example : ensure_complete_sentence "*" = "" := by decide
example : ensure_complete_sentence "a\nb" = "a\nb." := by decide

/-! ### Basic facts about the character classes -/

theorem isMark_eq_false_of_isWs {c : Char} (h : isWs c = true) : isMark c = false := by
  simp only [isWs, Bool.or_eq_true, decide_eq_true_eq] at h
  rcases h with ((((h | h) | h) | h) | h) | h <;> subst h <;> decide

theorem isWs_eq_false_of_isTerminalPunct {c : Char} (h : isTerminalPunct c = true) :
    isWs c = false := by
  simp only [isTerminalPunct, Bool.or_eq_true, decide_eq_true_eq] at h
  rcases h with (h | h) | h <;> subst h <;> decide

theorem isMark_eq_false_of_isTerminalPunct {c : Char} (h : isTerminalPunct c = true) :
    isMark c = false := by
  simp only [isTerminalPunct, Bool.or_eq_true, decide_eq_true_eq] at h
  rcases h with (h | h) | h <;> subst h <;> decide

/-! ### `repMarksAux`: output has no emphasis characters, and it is the
identity on inputs without them -/

theorem noMarks_repMarksAux (b : Bool) (l : List Char) : noMarks (repMarksAux b l) := by
  induction l generalizing b with
  | nil => intro c hc; simp [repMarksAux] at hc
  | cons d ds ih =>
    intro c hc
    by_cases hd : isMark d = true
    · cases b with
      | true =>
        simp only [repMarksAux, hd, if_true] at hc
        exact ih true c hc
      | false =>
        simp only [repMarksAux, hd, if_true, if_false] at hc
        rcases List.mem_cons.mp hc with h | h
        · subst h; decide
        · exact ih true c h
    · rw [Bool.not_eq_true] at hd
      simp only [repMarksAux, hd, Bool.false_eq_true, if_false] at hc
      rcases List.mem_cons.mp hc with h | h
      · subst h; exact hd
      · exact ih false c h

theorem repMarksAux_eq_self {l : List Char} (h : noMarks l) (b : Bool) :
    repMarksAux b l = l := by
  induction l generalizing b with
  | nil => rfl
  | cons d ds ih =>
    have hd : isMark d = false := h d (List.mem_cons_self d ds)
    have hds : noMarks ds := fun c hc => h c (List.mem_cons_of_mem d hc)
    simp only [repMarksAux, hd, Bool.false_eq_true, if_false]
    rw [ih hds]

theorem mem_repMarksAux {c : Char} {l : List Char} (hc : c ∈ l) (hm : isMark c = false) :
    ∀ b, c ∈ repMarksAux b l := by
  induction l with
  | nil => cases hc
  | cons d ds ih =>
    intro b
    by_cases hd : isMark d = true
    · have hcds : c ∈ ds := by
        rcases List.mem_cons.mp hc with h | h
        · exact absurd (h ▸ hd) (by rw [hm]; simp)
        · exact h
      cases b with
      | true => simpa only [repMarksAux, hd, if_true] using ih hcds true
      | false =>
        simp only [repMarksAux, hd, if_true, if_false]
        exact List.mem_cons_of_mem _ (ih hcds true)
    · rw [Bool.not_eq_true] at hd
      simp only [repMarksAux, hd, Bool.false_eq_true, if_false]
      rcases List.mem_cons.mp hc with h | h
      · exact h ▸ List.mem_cons_self d _
      · exact List.mem_cons_of_mem _ (ih h false)

/-! ### `pyStrip`: no leading and no trailing whitespace; identity on
already-stripped input -/

theorem dropWhile_isWs_headNotWs (l : List Char) : headNotWs (l.dropWhile isWs) := by
  induction l with
  | nil => intro c hc; simp [List.dropWhile] at hc
  | cons d ds ih =>
    intro c hc
    by_cases hd : isWs d = true
    · rw [List.dropWhile_cons_of_pos hd] at hc
      exact ih c hc
    · rw [Bool.not_eq_true] at hd
      rw [List.dropWhile_cons_of_neg (by simp [hd])] at hc
      simp only [List.head?_cons, Option.some.injEq] at hc
      exact hc ▸ hd

theorem dropWhile_eq_self_of_headNotWs {l : List Char} (h : headNotWs l) :
    l.dropWhile isWs = l := by
  cases l with
  | nil => rfl
  | cons d ds =>
    have hd : isWs d = false := h d rfl
    exact List.dropWhile_cons_of_neg (by simp [hd])

theorem mem_of_mem_dropWhile {c : Char} {l : List Char} (hc : c ∈ l.dropWhile isWs) :
    c ∈ l := by
  induction l with
  | nil => simp [List.dropWhile] at hc
  | cons d ds ih =>
    by_cases hd : isWs d = true
    · rw [List.dropWhile_cons_of_pos hd] at hc
      exact List.mem_cons_of_mem _ (ih hc)
    · rw [List.dropWhile_cons_of_neg (by simpa using hd)] at hc
      exact hc

theorem mem_dropWhile_of_not_isWs {c : Char} {l : List Char} (hc : c ∈ l)
    (hw : isWs c = false) : c ∈ l.dropWhile isWs := by
  induction l with
  | nil => cases hc
  | cons d ds ih =>
    by_cases hd : isWs d = true
    · rw [List.dropWhile_cons_of_pos hd]
      rcases List.mem_cons.mp hc with h | h
      · exact absurd (h ▸ hd) (by rw [hw]; simp)
      · exact ih h
    · rw [List.dropWhile_cons_of_neg (by simpa using hd)]
      exact hc

theorem lastNotWs_dropWhile {l : List Char} (h : lastNotWs l) :
    lastNotWs (l.dropWhile isWs) := by
  induction l with
  | nil => simpa [List.dropWhile] using h
  | cons d ds ih =>
    by_cases hd : isWs d = true
    · rw [List.dropWhile_cons_of_pos hd]
      apply ih
      intro c hc
      cases ds with
      | nil => simp at hc
      | cons e es => exact h c (by rw [List.getLast?_cons_cons]; exact hc)
    · rwa [List.dropWhile_cons_of_neg (by simpa using hd)]

theorem rstrip_cons (c : Char) (cs : List Char) :
    rstrip (c :: cs) = if decide (rstrip cs = []) && isWs c then [] else c :: rstrip cs := rfl

theorem lastNotWs_rstrip (l : List Char) : lastNotWs (rstrip l) := by
  induction l with
  | nil => intro c hc; simp [rstrip] at hc
  | cons d ds ih =>
    intro c hc
    simp only [rstrip] at hc
    split at hc
    · simp at hc
    · next hcond =>
      rcases hr : rstrip ds with _ | ⟨e, es⟩
      · rw [hr] at hc hcond
        simp only [List.getLast?_cons, List.getLast?_nil, Option.getD_none,
          Option.some.injEq] at hc
        subst hc
        simpa [Bool.and_eq_true] using hcond
      · rw [hr] at hc
        rw [List.getLast?_cons_cons] at hc
        exact ih c (hr ▸ hc)

theorem headNotWs_rstrip {l : List Char} (h : headNotWs l) : headNotWs (rstrip l) := by
  cases l with
  | nil => intro c hc; simp [rstrip] at hc
  | cons d ds =>
    have hd : isWs d = false := h d rfl
    intro c hc
    simp only [rstrip, hd, Bool.and_false, Bool.false_eq_true, if_false] at hc
    simp only [List.head?_cons, Option.some.injEq] at hc
    exact hc ▸ hd

theorem rstrip_eq_self_of_lastNotWs {l : List Char} (h : lastNotWs l) : rstrip l = l := by
  induction l with
  | nil => rfl
  | cons d ds ih =>
    cases ds with
    | nil =>
      have hd : isWs d = false := h d rfl
      simp [rstrip, hd]
    | cons e es =>
      have hds : lastNotWs (e :: es) := by
        intro c hc
        exact h c (by rw [List.getLast?_cons_cons]; exact hc)
      have hr : rstrip (e :: es) = e :: es := ih hds
      rw [rstrip_cons, hr]
      simp

theorem mem_rstrip_of_not_isWs {c : Char} {l : List Char} (hc : c ∈ l)
    (hw : isWs c = false) : c ∈ rstrip l := by
  induction l with
  | nil => cases hc
  | cons d ds ih =>
    simp only [rstrip]
    split
    · next hcond =>
      simp only [Bool.and_eq_true, decide_eq_true_eq] at hcond
      rcases List.mem_cons.mp hc with h | h
      · exact absurd (h ▸ hcond.2) (by rw [hw]; simp)
      · exact absurd (ih h) (by rw [hcond.1]; simp)
    · rcases List.mem_cons.mp hc with h | h
      · exact h ▸ List.mem_cons_self d _
      · exact List.mem_cons_of_mem _ (ih h)

theorem mem_of_mem_rstrip {c : Char} {l : List Char} (hc : c ∈ rstrip l) : c ∈ l := by
  induction l with
  | nil => simp [rstrip] at hc
  | cons d ds ih =>
    simp only [rstrip] at hc
    split at hc
    · cases hc
    · rcases List.mem_cons.mp hc with h | h
      · exact h ▸ List.mem_cons_self d _
      · exact List.mem_cons_of_mem _ (ih h)

theorem pyStrip_headNotWs (l : List Char) : headNotWs (pyStrip l) :=
  headNotWs_rstrip (dropWhile_isWs_headNotWs l)

theorem pyStrip_lastNotWs (l : List Char) : lastNotWs (pyStrip l) :=
  lastNotWs_rstrip _

theorem pyStrip_eq_self {l : List Char} (h1 : headNotWs l) (h2 : lastNotWs l) :
    pyStrip l = l := by
  unfold pyStrip
  rw [dropWhile_eq_self_of_headNotWs h1, rstrip_eq_self_of_lastNotWs h2]

theorem mem_pyStrip_of_not_isWs {c : Char} {l : List Char} (hc : c ∈ l)
    (hw : isWs c = false) : c ∈ pyStrip l :=
  mem_rstrip_of_not_isWs (mem_dropWhile_of_not_isWs hc hw) hw

theorem mem_of_mem_pyStrip {c : Char} {l : List Char} (hc : c ∈ pyStrip l) : c ∈ l :=
  mem_of_mem_dropWhile (mem_of_mem_rstrip hc)

/-! ### `collWsAux`: output has no whitespace runs, keeps ends and membership,
and is the identity on inputs without whitespace runs -/

theorem collWsAux_cons (pend : WsPend) (c : Char) (cs : List Char) :
    collWsAux pend (c :: cs) =
      if isWs c then collWsAux (bumpPend pend c) cs
      else flushPend pend ++ c :: collWsAux .empty cs := rfl

theorem noWsRunB_tail {a : Char} {l : List Char} (h : noWsRunB (a :: l) = true) :
    noWsRunB l = true := by
  cases l with
  | nil => rfl
  | cons b t => exact (Bool.and_eq_true_iff.mp h).2

theorem noWsRunB_cons_iff {a : Char} {l : List Char} :
    noWsRunB (a :: l) = true ↔
      noWsRunB l = true ∧ ∀ b, l.head? = some b → (isWs a && isWs b) = false := by
  cases l with
  | nil => simp [noWsRunB]
  | cons b t =>
    show (!(isWs a && isWs b) && noWsRunB (b :: t)) = true ↔ _
    rw [Bool.and_eq_true_iff, Bool.not_eq_true']
    constructor
    · rintro ⟨h1, h2⟩
      refine ⟨h2, fun b' hb' => ?_⟩
      rw [List.head?_cons, Option.some.injEq] at hb'
      exact hb' ▸ h1
    · rintro ⟨h1, h2⟩
      exact ⟨h2 b rfl, h1⟩

theorem noMarks_collWsAux {l : List Char} (hl : noMarks l) :
    ∀ pend, noMarks (flushPend pend) → noMarks (collWsAux pend l) := by
  induction l with
  | nil => intro pend hp; exact hp
  | cons d ds ih =>
    intro pend hp c hc
    have hds : noMarks ds := fun x hx => hl x (List.mem_cons_of_mem d hx)
    by_cases hd : isWs d = true
    · rw [collWsAux_cons, if_pos hd] at hc
      refine ih hds (bumpPend pend d) ?_ c hc
      cases pend with
      | empty =>
        intro x hx
        simp only [bumpPend, flushPend, List.mem_singleton] at hx
        exact hx ▸ isMark_eq_false_of_isWs hd
      | single w => intro x hx; simp only [bumpPend, flushPend, List.mem_singleton] at hx
                    exact hx ▸ (by decide)
      | multi => intro x hx; simp only [bumpPend, flushPend, List.mem_singleton] at hx
                 exact hx ▸ (by decide)
    · rw [Bool.not_eq_true] at hd
      rw [collWsAux_cons, hd] at hc
      simp only [Bool.false_eq_true, if_false] at hc
      rcases List.mem_append.mp hc with h | h
      · exact hp c h
      · rcases List.mem_cons.mp h with h' | h'
        · exact h' ▸ hl d (List.mem_cons_self d ds)
        · exact ih hds .empty (fun x hx => by cases hx) c h'

theorem headNotWs_collWsAux {l : List Char} (h : headNotWs l) :
    headNotWs (collWsAux .empty l) := by
  cases l with
  | nil => intro c hc; simp [collWsAux, flushPend] at hc
  | cons d ds =>
    have hd : isWs d = false := h d rfl
    intro c hc
    rw [collWsAux_cons, hd] at hc
    simp only [Bool.false_eq_true, if_false, flushPend, List.nil_append,
      List.head?_cons, Option.some.injEq] at hc
    exact hc ▸ hd

theorem lastNotWs_collWsAux : ∀ (l : List Char) (pend : WsPend),
    lastNotWs l → (l = [] → pend = .empty) → lastNotWs (collWsAux pend l) := by
  intro l
  induction l with
  | nil =>
    intro pend _ hp
    rw [hp rfl]
    intro c hc
    simp [collWsAux, flushPend] at hc
  | cons d ds ih =>
    intro pend hlast _
    by_cases hd : isWs d = true
    · rw [collWsAux_cons, if_pos hd]
      cases hds : ds with
      | nil =>
        subst hds
        exact absurd (hlast d rfl) (by rw [hd]; simp)
      | cons e es =>
        subst hds
        refine ih (bumpPend pend d) ?_ (by simp)
        intro c hc
        exact hlast c (by rw [List.getLast?_cons_cons]; exact hc)
    · rw [Bool.not_eq_true] at hd
      rw [collWsAux_cons, hd]
      simp only [Bool.false_eq_true, if_false]
      intro c hc
      rw [List.getLast?_append] at hc
      cases hds : ds with
      | nil =>
        subst hds
        simp only [collWsAux, flushPend, List.getLast?_cons, List.getLast?_nil,
          Option.getD_none, Option.or_some, Option.some.injEq] at hc
        exact hc ▸ hd
      | cons e es =>
        subst hds
        have hlds : lastNotWs (e :: es) := by
          intro x hx
          exact hlast x (by rw [List.getLast?_cons_cons]; exact hx)
        have hX := ih .empty hlds (by simp)
        cases hXv : collWsAux .empty (e :: es) with
        | nil =>
          rw [hXv] at hc
          simp only [List.getLast?_cons, List.getLast?_nil, Option.getD_none,
            Option.or_some, Option.some.injEq] at hc
          exact hc ▸ hd
        | cons y ys =>
          rw [hXv, List.getLast?_cons_cons] at hc
          cases hg : (y :: ys).getLast? with
          | none =>
            rw [List.getLast?_cons] at hg
            cases hys : ys.getLast? <;> rw [hys] at hg <;> simp at hg
          | some z =>
            rw [hg, Option.or_some, Option.some.injEq] at hc
            refine hX c ?_
            rw [hXv]
            exact hg.trans (congrArg some hc)

theorem noWsRunB_collWsAux (l : List Char) : ∀ pend, noWsRunB (collWsAux pend l) = true := by
  induction l with
  | nil => intro pend; cases pend <;> rfl
  | cons d ds ih =>
    intro pend
    by_cases hd : isWs d = true
    · rw [collWsAux_cons, if_pos hd]
      exact ih (bumpPend pend d)
    · rw [Bool.not_eq_true] at hd
      rw [collWsAux_cons, hd]
      simp only [Bool.false_eq_true, if_false]
      have hrec : noWsRunB (d :: collWsAux .empty ds) = true := by
        rw [noWsRunB_cons_iff]
        exact ⟨ih .empty, fun b _ => by rw [hd]; rfl⟩
      cases pend with
      | empty => exact hrec
      | single w =>
        show noWsRunB (w :: d :: _) = true
        rw [noWsRunB_cons_iff]
        exact ⟨hrec, fun b hb => by
          rw [List.head?_cons, Option.some.injEq] at hb
          subst hb
          rw [hd, Bool.and_false]⟩
      | multi =>
        show noWsRunB (' ' :: d :: _) = true
        rw [noWsRunB_cons_iff]
        exact ⟨hrec, fun b hb => by
          rw [List.head?_cons, Option.some.injEq] at hb
          subst hb
          rw [hd, Bool.and_false]⟩

theorem collWsAux_id (l : List Char) :
    (noWsRunB l = true → collWsAux .empty l = l) ∧
    (∀ c, isWs c = true → noWsRunB (c :: l) = true → collWsAux (.single c) l = c :: l) := by
  induction l with
  | nil =>
    refine ⟨fun _ => rfl, fun c _ _ => rfl⟩
  | cons d ds ih =>
    constructor
    · intro h
      by_cases hd : isWs d = true
      · rw [collWsAux_cons, if_pos hd]
        exact ih.2 d hd h
      · rw [Bool.not_eq_true] at hd
        rw [collWsAux_cons, hd]
        simp only [Bool.false_eq_true, if_false, flushPend, List.nil_append]
        rw [ih.1 (noWsRunB_tail h)]
    · intro c hc h
      have hd : isWs d = false := by
        have := (noWsRunB_cons_iff.mp h).2 d rfl
        rwa [hc, Bool.true_and] at this
      rw [collWsAux_cons, hd]
      simp only [Bool.false_eq_true, if_false, flushPend]
      rw [ih.1 (noWsRunB_tail (noWsRunB_tail h))]
      rfl

theorem noWsRunB_append_dot {l : List Char} (h : noWsRunB l = true) {a : Char}
    (ha : isWs a = false) : noWsRunB (l ++ [a]) = true := by
  induction l with
  | nil => rfl
  | cons d ds ih =>
    rw [List.cons_append, noWsRunB_cons_iff]
    refine ⟨ih (noWsRunB_tail h), fun b hb => ?_⟩
    cases ds with
    | nil =>
      simp only [List.nil_append, List.head?_cons, Option.some.injEq] at hb
      subst hb
      rw [ha, Bool.and_false]
    | cons e es =>
      simp only [List.cons_append, List.head?_cons, Option.some.injEq] at hb
      have := (noWsRunB_cons_iff.mp h).2 e rfl
      rw [← hb]
      exact this

theorem mem_collWsAux_of_not_isWs {c : Char} {l : List Char} (hc : c ∈ l)
    (hw : isWs c = false) : ∀ pend, c ∈ collWsAux pend l := by
  induction l with
  | nil => cases hc
  | cons d ds ih =>
    intro pend
    by_cases hd : isWs d = true
    · have hcds : c ∈ ds := by
        rcases List.mem_cons.mp hc with h | h
        · exact absurd (h ▸ hd) (by rw [hw]; simp)
        · exact h
      rw [collWsAux_cons, if_pos hd]
      exact ih hcds (bumpPend pend d)
    · rw [Bool.not_eq_true] at hd
      rw [collWsAux_cons, hd]
      simp only [Bool.false_eq_true, if_false]
      rcases List.mem_cons.mp hc with h | h
      · exact List.mem_append_right _ (h ▸ List.mem_cons_self d _)
      · exact List.mem_append_right _ (List.mem_cons_of_mem _ (ih h .empty))

/-! ### The output of `ensure_complete_sentence` is in normal form -/

theorem finishDot_of_none {t : List Char} (h : t.getLast? = none) : finishDot t = t := by
  unfold finishDot; rw [h]

theorem finishDot_of_terminal {t : List Char} {c : Char} (h : t.getLast? = some c)
    (ht : isTerminalPunct c = true) : finishDot t = t := by
  unfold finishDot; rw [h]; simp [ht]

theorem finishDot_of_not_terminal {t : List Char} {c : Char} (h : t.getLast? = some c)
    (ht : isTerminalPunct c = false) : finishDot t = t ++ ['.'] := by
  unfold finishDot; rw [h]; simp [ht]

theorem finishDot_normal {t : List Char} (htm : noMarks t) (hth : headNotWs t)
    (htl : lastNotWs t) (htr : noWsRunB t = true) :
    noMarks (finishDot t) ∧ headNotWs (finishDot t) ∧
    lastNotWs (finishDot t) ∧ noWsRunB (finishDot t) = true ∧
    (∀ c, (finishDot t).getLast? = some c → isTerminalPunct c = true) := by
  cases hlast : t.getLast? with
  | none =>
    rw [finishDot_of_none hlast]
    rw [List.getLast?_eq_none_iff] at hlast
    subst hlast
    refine ⟨?_, ?_, ?_, rfl, ?_⟩ <;> intro c hc <;> cases hc
  | some c =>
    by_cases hterm : isTerminalPunct c = true
    · rw [finishDot_of_terminal hlast hterm]
      refine ⟨htm, hth, htl, htr, ?_⟩
      intro d hd
      rw [hlast, Option.some.injEq] at hd
      exact hd ▸ hterm
    · rw [Bool.not_eq_true] at hterm
      rw [finishDot_of_not_terminal hlast hterm]
      refine ⟨?_, ?_, ?_, ?_, ?_⟩
      · intro d hd
        rcases List.mem_append.mp hd with h | h
        · exact htm d h
        · rw [List.mem_singleton] at h
          exact h ▸ (by decide)
      · intro d hd
        rw [List.head?_append] at hd
        cases hh : t.head? with
        | none =>
          rw [hh] at hd
          simp only [Option.none_or, List.head?_cons, Option.some.injEq] at hd
          exact hd ▸ (by decide)
        | some x =>
          rw [hh] at hd
          simp only [Option.or_some, Option.some.injEq] at hd
          exact hd ▸ hth x hh
      · intro d hd
        rw [List.getLast?_concat, Option.some.injEq] at hd
        exact hd ▸ (by decide)
      · exact noWsRunB_append_dot htr (by decide)
      · intro d hd
        rw [List.getLast?_concat, Option.some.injEq] at hd
        exact hd ▸ (by decide)

theorem finishDot_eq_self {t : List Char}
    (h : ∀ c, t.getLast? = some c → isTerminalPunct c = true) : finishDot t = t := by
  cases hlast : t.getLast? with
  | none => exact finishDot_of_none hlast
  | some c => exact finishDot_of_terminal hlast (h c hlast)

theorem ensureCompleteL_normal (l : List Char) :
    noMarks (ensureCompleteL l) ∧ headNotWs (ensureCompleteL l) ∧
    lastNotWs (ensureCompleteL l) ∧ noWsRunB (ensureCompleteL l) = true ∧
    (∀ c, (ensureCompleteL l).getLast? = some c → isTerminalPunct c = true) := by
  unfold ensureCompleteL
  refine finishDot_normal ?_ ?_ ?_ ?_
  · exact noMarks_collWsAux
      (fun c hc => noMarks_repMarksAux false l c (mem_of_mem_pyStrip hc))
      .empty (fun c hc => by cases hc)
  · exact headNotWs_collWsAux (pyStrip_headNotWs _)
  · exact lastNotWs_collWsAux _ .empty (pyStrip_lastNotWs _) (fun _ => rfl)
  · exact noWsRunB_collWsAux _ .empty

theorem ensureCompleteL_idem (l : List Char) :
    ensureCompleteL (ensureCompleteL l) = ensureCompleteL l := by
  obtain ⟨hm, hh, hl, hr, ht⟩ := ensureCompleteL_normal l
  conv_lhs => rw [ensureCompleteL]
  rw [repMarksAux_eq_self hm, pyStrip_eq_self hh hl, (collWsAux_id _).1 hr,
    finishDot_eq_self ht]

theorem finishDot_ne_nil {t : List Char} (h : t ≠ []) : finishDot t ≠ [] := by
  cases hlast : t.getLast? with
  | none => rw [finishDot_of_none hlast]; exact h
  | some c =>
    by_cases hterm : isTerminalPunct c = true
    · rw [finishDot_of_terminal hlast hterm]; exact h
    · rw [Bool.not_eq_true] at hterm
      rw [finishDot_of_not_terminal hlast hterm]
      simp

theorem endsInTerminal_of_terminal {s : String} {c : Char} (h : s.data.getLast? = some c)
    (ht : isTerminalPunct c = true) : endsInTerminal s = true := by
  unfold endsInTerminal
  rw [h]
  exact ht

/-! ### Claim C5 -/

/-- C5, counterexample.  The claim says that for all text `t` without
terminal punctuation, `ensure_complete_sentence t` ends in `.`, `!` or `?`.
The input `"*"` has no terminal punctuation, but normalizes to the empty
string, which ends in nothing: the emphasis run `*` is replaced by a space
and then stripped, and `'.'` is only appended to a non-empty result
(`if t and t[-1] not in ...`). -/
theorem ensure_complete_sentence_star_empty :
    endsInTerminal "*" = false ∧ ensure_complete_sentence "*" = "" ∧
      endsInTerminal (ensure_complete_sentence "*") = false := by
  refine ⟨rfl, ?_, ?_⟩ <;> decide

/-- C5, amended.  `ensure_complete_sentence` is idempotent on every input;
and whenever the input has at least one character that is neither an
emphasis marker nor whitespace (so the normalized text is non-empty), the
result ends in `.`, `!` or `?`. -/
theorem ensure_complete_sentence_idem_and_terminal :
    (∀ s : String,
      ensure_complete_sentence (ensure_complete_sentence s) = ensure_complete_sentence s) ∧
    (∀ s : String, (∃ c ∈ s.data, isMark c = false ∧ isWs c = false) →
      endsInTerminal (ensure_complete_sentence s) = true) := by
  constructor
  · intro s
    show (⟨ensureCompleteL (ensureCompleteL s.data)⟩ : String) = ⟨ensureCompleteL s.data⟩
    rw [ensureCompleteL_idem]
  · rintro s ⟨c, hc, hm, hw⟩
    have h1 : c ∈ repMarksAux false s.data := mem_repMarksAux hc hm false
    have h2 : c ∈ pyStrip (repMarksAux false s.data) := mem_pyStrip_of_not_isWs h1 hw
    have h3 : c ∈ collWsAux .empty (pyStrip (repMarksAux false s.data)) :=
      mem_collWsAux_of_not_isWs h2 hw .empty
    have hne : ensureCompleteL s.data ≠ [] :=
      finishDot_ne_nil (List.ne_nil_of_mem h3)
    obtain ⟨_, _, _, _, hterm⟩ := ensureCompleteL_normal s.data
    cases hg : (ensureCompleteL s.data).getLast? with
    | none => rw [List.getLast?_eq_none_iff] at hg; exact absurd hg hne
    | some d =>
      exact endsInTerminal_of_terminal (s := ⟨ensureCompleteL s.data⟩) hg (hterm d hg)

/-- C5, witness: the amended theorem applied at the concrete input
`"hi there"` (which contains the non-marker non-whitespace character `'h'`). -/
theorem ensure_complete_sentence_idem_and_terminal_witness :
    ensure_complete_sentence (ensure_complete_sentence "hi there") =
      ensure_complete_sentence "hi there" ∧
    endsInTerminal (ensure_complete_sentence "hi there") = true :=
  ⟨ensure_complete_sentence_idem_and_terminal.1 "hi there",
   ensure_complete_sentence_idem_and_terminal.2 "hi there"
     ⟨'h', by decide, by decide, by decide⟩⟩

/-! ### Equation lemmas for `llm_safe` -/

theorem llm_safe_call0_transport {call : Nat → LMCall → LMOutcome}
    {system user : String} {mt : Nat} {tp : ℚ}
    (h : call 0 ⟨system, user, mt, tp⟩ = .transport) :
    llm_safe call system user mt tp = .error .transport := by
  unfold llm_safe; rw [h]

theorem llm_safe_call0_ok_looks {call : Nat → LMCall → LMOutcome}
    {system user : String} {mt : Nat} {tp : ℚ} {s : String}
    (h : call 0 ⟨system, user, mt, tp⟩ = .ok s) (hl : looks_ok s = true) :
    llm_safe call system user mt tp = .ok (ensure_complete_sentence s) := by
  unfold llm_safe; rw [h]; simp only [hl, if_true]

theorem llm_safe_call0_ok_retry {call : Nat → LMCall → LMOutcome}
    {system user : String} {mt : Nat} {tp : ℚ} {s : String}
    (h : call 0 ⟨system, user, mt, tp⟩ = .ok s) (hl : looks_ok s = false) :
    llm_safe call system user mt tp =
      match call 1 (retryCall system user mt tp) with
      | .ok out2 => .ok (ensure_complete_sentence out2)
      | .badRequest => llmSoftTier call 2 system user mt tp
      | .transport => .error .transport := by
  unfold llm_safe; rw [h]; simp only [hl, Bool.false_eq_true, if_false]

theorem llm_safe_call0_badRequest {call : Nat → LMCall → LMOutcome}
    {system user : String} {mt : Nat} {tp : ℚ}
    (h : call 0 ⟨system, user, mt, tp⟩ = .badRequest) :
    llm_safe call system user mt tp = llmSoftTier call 1 system user mt tp := by
  unfold llm_safe; rw [h]

theorem llm_safe_retry_is_ok {call : Nat → LMCall → LMOutcome}
    {system user : String} {mt : Nat} {tp : ℚ} {s s2 : String}
    (h0 : call 0 ⟨system, user, mt, tp⟩ = .ok s) (hl : looks_ok s = false)
    (h1 : call 1 (retryCall system user mt tp) = .ok s2) :
    llm_safe call system user mt tp = .ok (ensure_complete_sentence s2) := by
  rw [llm_safe_call0_ok_retry h0 hl, h1]

theorem llm_safe_retry_is_transport {call : Nat → LMCall → LMOutcome}
    {system user : String} {mt : Nat} {tp : ℚ} {s : String}
    (h0 : call 0 ⟨system, user, mt, tp⟩ = .ok s) (hl : looks_ok s = false)
    (h1 : call 1 (retryCall system user mt tp) = .transport) :
    llm_safe call system user mt tp = .error .transport := by
  rw [llm_safe_call0_ok_retry h0 hl, h1]

theorem llm_safe_retry_is_badRequest {call : Nat → LMCall → LMOutcome}
    {system user : String} {mt : Nat} {tp : ℚ} {s : String}
    (h0 : call 0 ⟨system, user, mt, tp⟩ = .ok s) (hl : looks_ok s = false)
    (h1 : call 1 (retryCall system user mt tp) = .badRequest) :
    llm_safe call system user mt tp = llmSoftTier call 2 system user mt tp := by
  rw [llm_safe_call0_ok_retry h0 hl, h1]

theorem llmSoftTier_soft_ok {call : Nat → LMCall → LMOutcome} {i : Nat}
    {system user : String} {mt : Nat} {tp : ℚ} {s : String}
    (h : call i (softCall system user mt tp) = .ok s) :
    llmSoftTier call i system user mt tp = .ok (ensure_complete_sentence s) := by
  unfold llmSoftTier; rw [h]

theorem llmSoftTier_final_ok {call : Nat → LMCall → LMOutcome} {i : Nat}
    {system user : String} {mt : Nat} {tp : ℚ} {s : String}
    (h : failureOf (call i (softCall system user mt tp)) ≠ none)
    (hf : call (i + 1) finalCall = .ok s) :
    llmSoftTier call i system user mt tp = .ok (ensure_complete_sentence s) := by
  unfold llmSoftTier
  cases hs : call i (softCall system user mt tp) with
  | ok s2 => rw [hs] at h; exact absurd rfl h
  | badRequest => rw [hf]
  | transport => rw [hf]

theorem llmSoftTier_final_badRequest {call : Nat → LMCall → LMOutcome} {i : Nat}
    {system user : String} {mt : Nat} {tp : ℚ}
    (h : failureOf (call i (softCall system user mt tp)) ≠ none)
    (hf : call (i + 1) finalCall = .badRequest) :
    llmSoftTier call i system user mt tp = .error .badRequest := by
  unfold llmSoftTier
  cases hs : call i (softCall system user mt tp) with
  | ok s2 => rw [hs] at h; exact absurd rfl h
  | badRequest => rw [hf]
  | transport => rw [hf]

theorem llmSoftTier_final_transport {call : Nat → LMCall → LMOutcome} {i : Nat}
    {system user : String} {mt : Nat} {tp : ℚ}
    (h : failureOf (call i (softCall system user mt tp)) ≠ none)
    (hf : call (i + 1) finalCall = .transport) :
    llmSoftTier call i system user mt tp = .error .transport := by
  unfold llmSoftTier
  cases hs : call i (softCall system user mt tp) with
  | ok s2 => rw [hs] at h; exact absurd rfl h
  | badRequest => rw [hf]
  | transport => rw [hf]

/-! ### Every successful result of `llm_safe` is a normalized model output -/

theorem llmSoftTier_ok_shape {call : Nat → LMCall → LMOutcome} {i : Nat}
    {system user : String} {mt : Nat} {tp : ℚ} {out : String}
    (h : llmSoftTier call i system user mt tp = .ok out) :
    ∃ s, out = ensure_complete_sentence s := by
  unfold llmSoftTier at h
  split at h
  · exact ⟨_, (Except.ok.injEq _ _).mp h.symm⟩
  · split at h
    · exact ⟨_, (Except.ok.injEq _ _).mp h.symm⟩
    · cases h
    · cases h

theorem llm_safe_ok_shape {call : Nat → LMCall → LMOutcome}
    {system user : String} {mt : Nat} {tp : ℚ} {out : String}
    (h : llm_safe call system user mt tp = .ok out) :
    ∃ s, out = ensure_complete_sentence s := by
  unfold llm_safe at h
  split at h
  · split at h
    · exact ⟨_, (Except.ok.injEq _ _).mp h.symm⟩
    · split at h
      · exact ⟨_, (Except.ok.injEq _ _).mp h.symm⟩
      · exact llmSoftTier_ok_shape h
      · cases h
  · exact llmSoftTier_ok_shape h
  · cases h

theorem ensure_complete_sentence_empty_or_terminal (s : String) :
    ensure_complete_sentence s = "" ∨
      endsInTerminal (ensure_complete_sentence s) = true := by
  obtain ⟨_, _, _, _, hterm⟩ := ensureCompleteL_normal s.data
  cases hg : (ensureCompleteL s.data).getLast? with
  | none =>
    left
    rw [List.getLast?_eq_none_iff] at hg
    show (⟨ensureCompleteL s.data⟩ : String) = ""
    rw [hg]
  | some d =>
    right
    exact endsInTerminal_of_terminal (s := ⟨ensureCompleteL s.data⟩) hg (hterm d hg)

/-! ### Claim C1 -/

/-- C1, counterexample.  With every model call returning the empty string
(the preconditions of the claim hold: non-empty instruction and prompt,
positive token limit, temperature in `[0,1]`), `llm_safe` returns the empty
string: the acceptability retry output `""` is normalized to `""`, which
is not non-empty and does not end in `.`, `!` or `?`. -/
theorem llm_safe_can_return_empty :
    llm_safe (fun _ _ => .ok "") "a" "b" 100 (1/2) = .ok "" ∧
      endsInTerminal "" = false :=
  ⟨rfl, rfl⟩

/-- C1, amended.  Every string returned normally by `llm_safe` is either
empty (when the model output chosen for the returned attempt normalizes to
the empty string) or ends in `.`, `!` or `?`. -/
theorem llm_safe_ok_empty_or_terminal (call : Nat → LMCall → LMOutcome)
    (system user : String) (mt : Nat) (tp : ℚ) (out : String)
    (h : llm_safe call system user mt tp = .ok out) :
    out = "" ∨ endsInTerminal out = true := by
  obtain ⟨s, rfl⟩ := llm_safe_ok_shape h
  exact ensure_complete_sentence_empty_or_terminal s

/-- C1, witness: the amended theorem applied to an oracle that always
answers with a fixed acceptable sentence. -/
theorem llm_safe_ok_empty_or_terminal_witness :
    "This is a decent sentence." = "" ∨ endsInTerminal "This is a decent sentence." = true :=
  llm_safe_ok_empty_or_terminal (fun _ _ => .ok "This is a decent sentence")
    "a" "b" 100 (1/2) "This is a decent sentence." rfl

/-! ### Claim C10 -/

/-- C10.  When the first model output fails the acceptability check,
`llm_safe` makes exactly one retry — with `max_tokens` halved (floor 80)
and temperature raised by 0.1 (cap 0.8) — and returns that second output
after sentence-termination normalization unconditionally: the acceptability
check is not re-applied to the retry output. -/
theorem llm_safe_retry_unconditional (call : Nat → LMCall → LMOutcome)
    (system user : String) (mt : Nat) (tp : ℚ) (s0 s1 : String)
    (h0 : call 0 ⟨system, user, mt, tp⟩ = .ok s0)
    (hbad : looks_ok s0 = false)
    (h1 : call 1 ⟨system, user, max 80 (mt / 2), min (4/5 : ℚ) (tp + 1/10)⟩ = .ok s1) :
    llm_safe call system user mt tp = .ok (ensure_complete_sentence s1) := by
  rw [llm_safe_call0_ok_retry h0 hbad]
  rw [show retryCall system user mt tp =
    ⟨system, user, max 80 (mt / 2), min (4/5 : ℚ) (tp + 1/10)⟩ from rfl]
  rw [h1]

/-- C10, witness: a first answer of `"short"` fails the acceptability check
(length < 8); the retry answer contains a URL, and is still returned (after
normalization) even though it fails the acceptability check itself. -/
theorem llm_safe_retry_unconditional_witness :
    llm_safe (fun n _ => if n = 0 then .ok "short" else .ok "see http://x.y for details")
        "s" "u" 200 (1/2) =
      .ok (ensure_complete_sentence "see http://x.y for details") ∧
    looks_ok (ensure_complete_sentence "see http://x.y for details") = false :=
  ⟨llm_safe_retry_unconditional
      (fun n _ => if n = 0 then .ok "short" else .ok "see http://x.y for details")
      "s" "u" 200 (1/2) "short" "see http://x.y for details" rfl (by decide) rfl,
   by decide⟩

/-! ### Claim C2 -/

/-- C2, counterexample.  The claim says every error other than a
final-attempt catastrophic transport failure is retried internally and
never surfaced — "including a transport error raised by the very first
model call".  But the `except` clause of `llm_safe` catches only
`BadRequestError`: a transport error on the first call propagates
immediately, even though (second conjunct) every later attempt of this
oracle would have succeeded. -/
theorem llm_safe_first_transport_surfaces :
    llm_safe oracleFirstTransport "a" "b" 100 (1/2) = .error .transport ∧
      oracleFirstTransport 1 (softCall "a" "b" 100 (1/2)) =
        .ok "All later attempts would succeed." :=
  ⟨rfl, rfl⟩

theorem llmSoftTier_error_iff (call : Nat → LMCall → LMOutcome) (i : Nat)
    (system user : String) (mt : Nat) (tp : ℚ) (e : LMFailure) :
    llmSoftTier call i system user mt tp = .error e ↔
      failureOf (call i (softCall system user mt tp)) ≠ none ∧
        failureOf (call (i + 1) finalCall) = some e := by
  constructor
  · intro h
    cases hs : call i (softCall system user mt tp) with
    | ok s => rw [llmSoftTier_soft_ok hs] at h; cases h
    | badRequest =>
      have hfail : failureOf (call i (softCall system user mt tp)) ≠ none := by
        rw [hs]; simp [failureOf]
      refine ⟨by simp [failureOf], ?_⟩
      cases hf : call (i + 1) finalCall with
      | ok s2 => rw [llmSoftTier_final_ok hfail hf] at h; cases h
      | badRequest => rw [llmSoftTier_final_badRequest hfail hf] at h; cases h; rfl
      | transport => rw [llmSoftTier_final_transport hfail hf] at h; cases h; rfl
    | transport =>
      have hfail : failureOf (call i (softCall system user mt tp)) ≠ none := by
        rw [hs]; simp [failureOf]
      refine ⟨by simp [failureOf], ?_⟩
      cases hf : call (i + 1) finalCall with
      | ok s2 => rw [llmSoftTier_final_ok hfail hf] at h; cases h
      | badRequest => rw [llmSoftTier_final_badRequest hfail hf] at h; cases h; rfl
      | transport => rw [llmSoftTier_final_transport hfail hf] at h; cases h; rfl
  · rintro ⟨h1, h2⟩
    cases hf : call (i + 1) finalCall with
    | ok s => rw [hf] at h2; simp [failureOf] at h2
    | badRequest =>
      rw [hf] at h2
      simp only [failureOf, Option.some.injEq] at h2
      rw [llmSoftTier_final_badRequest h1 hf, h2]
    | transport =>
      rw [hf] at h2
      simp only [failureOf, Option.some.injEq] at h2
      rw [llmSoftTier_final_transport h1 hf, h2]

/-- C2, amended.  `llm_safe` raises an error to its caller exactly in
these situations: (1) a transport failure of the first call; (2) a
transport failure of the acceptability retry; (3) the first call (or, (4),
its acceptability retry) was rejected by the content policy, the softened
attempt also failed (with any error kind), and the final fixed-prompt
attempt failed — the final attempt's error kind (policy rejection or
transport) is what the caller sees.  Policy rejections of the first two
calls and any failure of the softened attempt are absorbed internally. -/
theorem llm_safe_error_characterization (call : Nat → LMCall → LMOutcome)
    (system user : String) (mt : Nat) (tp : ℚ) (e : LMFailure) :
    llm_safe call system user mt tp = .error e ↔
      (call 0 ⟨system, user, mt, tp⟩ = .transport ∧ e = .transport) ∨
      (∃ s, call 0 ⟨system, user, mt, tp⟩ = .ok s ∧ looks_ok s = false ∧
        call 1 (retryCall system user mt tp) = .transport ∧ e = .transport) ∨
      (call 0 ⟨system, user, mt, tp⟩ = .badRequest ∧
        failureOf (call 1 (softCall system user mt tp)) ≠ none ∧
        failureOf (call 2 finalCall) = some e) ∨
      (∃ s, call 0 ⟨system, user, mt, tp⟩ = .ok s ∧ looks_ok s = false ∧
        call 1 (retryCall system user mt tp) = .badRequest ∧
        failureOf (call 2 (softCall system user mt tp)) ≠ none ∧
        failureOf (call 3 finalCall) = some e) := by
  constructor
  · intro h
    cases hc0 : call 0 ⟨system, user, mt, tp⟩ with
    | transport =>
      rw [llm_safe_call0_transport hc0] at h
      cases h
      exact Or.inl ⟨rfl, rfl⟩
    | badRequest =>
      rw [llm_safe_call0_badRequest hc0] at h
      obtain ⟨h1, h2⟩ := (llmSoftTier_error_iff call 1 system user mt tp e).mp h
      exact Or.inr (Or.inr (Or.inl ⟨rfl, h1, h2⟩))
    | ok s =>
      by_cases hl : looks_ok s = true
      · rw [llm_safe_call0_ok_looks hc0 hl] at h; cases h
      · rw [Bool.not_eq_true] at hl
        cases hc1 : call 1 (retryCall system user mt tp) with
        | ok s2 => rw [llm_safe_retry_is_ok hc0 hl hc1] at h; cases h
        | transport =>
          rw [llm_safe_retry_is_transport hc0 hl hc1] at h
          cases h
          exact Or.inr (Or.inl ⟨s, rfl, hl, rfl, rfl⟩)
        | badRequest =>
          rw [llm_safe_retry_is_badRequest hc0 hl hc1] at h
          obtain ⟨h1, h2⟩ := (llmSoftTier_error_iff call 2 system user mt tp e).mp h
          exact Or.inr (Or.inr (Or.inr ⟨s, rfl, hl, rfl, h1, h2⟩))
  · rintro (⟨h0, he⟩ | ⟨s, h0, hl, h1, he⟩ | ⟨h0, h1, h2⟩ | ⟨s, h0, hl, h1, h2, h3⟩)
    · subst he; exact llm_safe_call0_transport h0
    · subst he; exact llm_safe_retry_is_transport h0 hl h1
    · rw [llm_safe_call0_badRequest h0]
      exact (llmSoftTier_error_iff call 1 system user mt tp e).mpr ⟨h1, h2⟩
    · rw [llm_safe_retry_is_badRequest h0 hl h1]
      exact (llmSoftTier_error_iff call 2 system user mt tp e).mpr ⟨h2, h3⟩

/-- C2, witness: the characterization applied to an always-transport
oracle. -/
theorem llm_safe_error_characterization_witness :
    llm_safe (fun _ _ => .transport) "a" "b" 100 (1/2) = .error .transport :=
  (llm_safe_error_characterization (fun _ _ => .transport) "a" "b" 100 (1/2)
    .transport).mpr (Or.inl ⟨rfl, rfl⟩)

/-! ### Claim C8: `_clean_repetition` -/

theorem prefixOf_iff {l1 l2 : List Char} : l1.isPrefixOf l2 = true ↔ l1 <+: l2 := by
  induction l1 generalizing l2 with
  | nil => simp [List.isPrefixOf]
  | cons a as ih =>
    cases l2 with
    | nil => simp [List.isPrefixOf]
    | cons b bs => simp [List.isPrefixOf, List.cons_prefix_cons, ih]

theorem findAlt_prefixOf {alts : List (List Char)} {l w : List Char}
    (h : findAlt alts l = some w) : w <+: l := by
  induction alts with
  | nil => cases h
  | cons a rest ih =>
    unfold findAlt at h
    split at h
    · next hp =>
      rw [Option.some.injEq] at h
      exact h ▸ prefixOf_iff.mp hp
    · exact ih h

theorem takeWhile_dropWhile_length (p : Char → Bool) (l : List Char) :
    (l.takeWhile p).length + (l.dropWhile p).length = l.length := by
  conv_rhs => rw [← List.takeWhile_append_dropWhile p l]
  rw [List.length_append]

theorem prefix_drop_length {w r : List Char} (h : w.isPrefixOf r = true) :
    (r.drop w.length).length + w.length = r.length := by
  obtain ⟨t, rfl⟩ := prefixOf_iff.mp h
  rw [List.drop_left, List.length_append]
  omega

theorem matchDupName_length {prev : Option Char} {l rep rest : List Char} {c : Char}
    (h : matchDupName prev l = some (rep, c, rest)) :
    rep.length + rest.length ≤ l.length := by
  unfold matchDupName at h
  split at h
  · split at h
    · next w hfind =>
      have hwl : w.length ≤ l.length := (findAlt_prefixOf hfind).length_le
      split at h
      · next r2 hdrop =>
        have hl2 : (l.drop w.length).length = r2.length + 1 := by rw [hdrop]; rfl
        rw [List.length_drop] at hl2
        split at h
        · cases h
        · next hsp =>
          have hr2 := takeWhile_dropWhile_length isWs r2
          have hsp1 : 1 ≤ (r2.takeWhile isWs).length := by
            cases hh : r2.takeWhile isWs with
            | nil => rw [hh] at hsp; simp at hsp
            | cons x xs => simp
          split at h
          · next hpre =>
            have hr3 := prefix_drop_length hpre
            have hgen : ∀ r5 : List Char,
                rest = r5.dropWhile isWs → rep = w ++ [',', ' '] →
                1 ≤ (r5.takeWhile isWs).length →
                r5.length ≤ ((r2.dropWhile isWs).drop w.length).length →
                rep.length + rest.length ≤ l.length := by
              intro r5 hrest hrep hsp21 hr5le
              have hr5 := takeWhile_dropWhile_length isWs r5
              have h1 : rep.length = w.length + 2 := by rw [hrep]; simp
              have h2 : rest.length = (r5.dropWhile isWs).length := by rw [hrest]
              omega
            split at h
            · next r5 hdrop2 =>
              split at h
              · cases h
              · next hsp2 =>
                rw [Option.some.injEq, Prod.mk.injEq, Prod.mk.injEq] at h
                obtain ⟨hrep, -, hrest⟩ := h
                refine hgen r5 hrest.symm hrep.symm ?_ ?_
                · cases hh : r5.takeWhile isWs with
                  | nil => rw [hh] at hsp2; simp at hsp2
                  | cons x xs => simp
                · rw [hdrop2]; simp
            · split at h
              · cases h
              · next hsp2 =>
                rw [Option.some.injEq, Prod.mk.injEq, Prod.mk.injEq] at h
                obtain ⟨hrep, -, hrest⟩ := h
                refine hgen ((r2.dropWhile isWs).drop w.length) hrest.symm hrep.symm ?_
                  (le_refl _)
                cases hh : ((r2.dropWhile isWs).drop w.length).takeWhile isWs with
                | nil => rw [hh] at hsp2; simp at hsp2
                | cons x xs => simp
          · cases h
      · cases h
    · cases h
  · cases h

theorem matchDupWord_length {prev : Option Char} {l rep rest : List Char} {c : Char}
    (h : matchDupWord prev l = some (rep, c, rest)) :
    rep.length + rest.length ≤ l.length := by
  unfold matchDupWord at h
  split at h
  · split at h
    · cases h
    · next hw =>
      have hl1 := takeWhile_dropWhile_length isWordChar l
      split at h
      · cases h
      · next hsp =>
        have hr1 := takeWhile_dropWhile_length isWs (l.dropWhile isWordChar)
        have hsp1 : 1 ≤ ((l.dropWhile isWordChar).takeWhile isWs).length := by
          cases hh : (l.dropWhile isWordChar).takeWhile isWs with
          | nil => rw [hh] at hsp; simp at hsp
          | cons x xs => simp
        split at h
        · next hpre =>
          have hr2 := prefix_drop_length hpre
          split at h
          · rw [Option.some.injEq, Prod.mk.injEq, Prod.mk.injEq] at h
            obtain ⟨hrep, -, hrest⟩ := h
            have h1 : rep.length = (l.takeWhile isWordChar).length := by rw [← hrep]
            have h2 : rest.length =
                (((l.dropWhile isWordChar).dropWhile isWs).drop
                  (l.takeWhile isWordChar).length).length := by rw [← hrest]
            omega
          · cases h
        · cases h
  · cases h

theorem matchDupPhrase_length {prev : Option Char} {l rep rest : List Char} {c : Char}
    (h : matchDupPhrase prev l = some (rep, c, rest)) :
    rep.length + rest.length ≤ l.length := by
  unfold matchDupPhrase at h
  split at h
  · split at h
    · next w hfind =>
      have hwl : w.length ≤ l.length := (findAlt_prefixOf hfind).length_le
      split at h
      · next r2 hdrop =>
        have hl2 : (l.drop w.length).length = r2.length + 1 := by rw [hdrop]; rfl
        rw [List.length_drop] at hl2
        split at h
        · cases h
        · next hsp =>
          have hr2 := takeWhile_dropWhile_length isWs r2
          have hsp1 : 1 ≤ (r2.takeWhile isWs).length := by
            cases hh : r2.takeWhile isWs with
            | nil => rw [hh] at hsp; simp at hsp
            | cons x xs => simp
          split at h
          · next hpre =>
            have hr3 := prefix_drop_length hpre
            rw [Option.some.injEq, Prod.mk.injEq, Prod.mk.injEq] at h
            obtain ⟨hrep, -, hrest⟩ := h
            have h1 : rep.length = w.length := by rw [← hrep]
            have h2 : rest.length = ((r2.dropWhile isWs).drop w.length).length := by
              rw [← hrest]
            omega
          · cases h
      · cases h
    · cases h
  · cases h

theorem regexSubScan_length
    (matcher : Option Char → List Char → Option (List Char × Char × List Char))
    (hm : ∀ prev l rep c rest, matcher prev l = some (rep, c, rest) →
      rep.length + rest.length ≤ l.length) :
    ∀ (fuel : Nat) (prev : Option Char) (l : List Char),
      (regexSubScan matcher fuel prev l).length ≤ l.length := by
  intro fuel
  induction fuel with
  | zero => intro prev l; exact le_refl _
  | succ f ih =>
    intro prev l
    cases l with
    | nil => simp [regexSubScan]
    | cons c cs =>
      cases hmatch : matcher prev (c :: cs) with
      | some t =>
        obtain ⟨rep, lastc, rest⟩ := t
        simp only [regexSubScan, hmatch, List.length_append]
        have h1 := ih (some lastc) rest
        have h2 := hm prev (c :: cs) rep lastc rest hmatch
        omega
      | none =>
        simp only [regexSubScan, hmatch, List.length_cons]
        have := ih (some c) cs
        omega

/-- C8, counterexample.  `_clean_repetition` is not idempotent: the
word-duplication substitution `\b(\w+)\s+\1\b` collapses only one pair
per scan position, so `"a a a"` becomes `"a a"` after one application and
`"a"` only after a second one. -/
theorem clean_repetition_not_idempotent :
    clean_repetition (clean_repetition "a a a") ≠ clean_repetition "a a a" ∧
    clean_repetition "a a a" = "a a" ∧ clean_repetition "a a" = "a" := by
  exact ⟨by decide, by decide, by decide⟩

/-- C8, amended.  One application of repetition cleanup never lengthens the
text: each of the three substitution scans only removes characters, so the
output length is at most the input length for every string. -/
theorem clean_repetition_shrinks (s : String) :
    (clean_repetition s).length ≤ s.length := by
  show (regexSubScan matchDupPhrase _ none _).length ≤ s.data.length
  refine le_trans (regexSubScan_length _ ?_ _ _ _) ?_
  · exact fun _ _ _ _ _ h => matchDupPhrase_length h
  · refine le_trans (regexSubScan_length _ ?_ _ _ _) ?_
    · exact fun _ _ _ _ _ h => matchDupWord_length h
    · exact regexSubScan_length _ (fun _ _ _ _ _ h => matchDupName_length h) _ _ _


/-! ### Claim C6: opener rotation -/

set_option maxRecDepth 4000 in
example : (vary_opening "Well this is surprising data" .RECO (fun _ => none) false 0 0).1 =
    "this is surprising data" := by decide
set_option maxRecDepth 4000 in
example : (vary_opening "Well hello" .RECO (fun _ => none) true 2 0).1 =
    "From that signal, hello" := by decide
set_option maxRecDepth 4000 in
example : (vary_opening "x" .RECO (fun _ => some "Given that") true 0 0).2 .RECO =
    some "Looking at this" := by decide

theorem getD_mod_mem {l : List String} (h : l ≠ []) (i : Nat) :
    l.getD (i % l.length) "" ∈ l := by
  have hlen : 0 < l.length := List.length_pos.mpr h
  have hmod : i % l.length < l.length := Nat.mod_lt _ hlen
  rw [List.getD_eq_getElem?_getD, List.getElem?_eq_getElem hmod]
  exact List.getElem_mem hmod

theorem filter_ne_ne_nil {l : List String} (hnd : l.Nodup) (hlen : 2 ≤ l.length)
    (x : String) : l.filter (fun c => c ≠ x) ≠ [] := by
  intro hnil
  rw [List.filter_eq_nil_iff] at hnil
  match l, hnd, hlen, hnil with
  | a :: b :: t, hnd, _, hnil =>
    have ha : a = x := by simpa using hnil a (List.mem_cons_self a _)
    have hb : b = x := by
      simpa using hnil b (List.mem_cons_of_mem a (List.mem_cons_self b _))
    have hab : a ≠ b := by
      intro h
      exact (List.nodup_cons.mp hnd).1 (h ▸ List.mem_cons_self b t)
    exact hab (ha.trans hb.symm)

/-- The opener stored by a replacement-branch call of `vary_opening` is
always drawn from the persona's opener pool. -/
theorem vary_opening_choice_mem (text : String) (role : Duo) (last : Duo → Option String)
    (i j : Nat) :
    ∃ c, (vary_opening text role last true i j).2 role = some c ∧ c ∈ OPENERS role := by
  have hpool : OPENERS role ≠ [] := by cases role <;> decide
  unfold vary_opening
  simp only [Bool.or_true, if_true]
  by_cases heq : last role = some ((OPENERS role).getD (i % (OPENERS role).length) "")
  · rw [if_pos heq]
    cases hf : (OPENERS role).filter
        (fun c => c ≠ (OPENERS role).getD (i % (OPENERS role).length) "") with
    | nil =>
      exact ⟨(OPENERS role).getD (i % (OPENERS role).length) "", by simp,
        getD_mod_mem hpool i⟩
    | cons p ps =>
      refine ⟨(p :: ps).getD (j % (p :: ps).length) "", by simp, ?_⟩
      have hsub : ∀ y, y ∈ p :: ps → y ∈ OPENERS role := by
        intro y hy
        rw [← hf] at hy
        exact (List.mem_filter.mp hy).1
      exact hsub _ (getD_mod_mem (by simp) j)
  · rw [if_neg heq]
    exact ⟨(OPENERS role).getD (i % (OPENERS role).length) "", by simp,
      getD_mod_mem hpool i⟩

/-- When the table already holds an opener for this persona, a
replacement-branch call of `vary_opening` stores a different one. -/
theorem vary_opening_replacement_new (text : String) (role : Duo)
    (last : Duo → Option String) (i j : Nat) (c1 : String) (hl : last role = some c1) :
    ∃ c2, (vary_opening text role last true i j).2 role = some c2 ∧ c2 ≠ c1 := by
  have hnd : (OPENERS role).Nodup := by cases role <;> decide
  have hlen2 : 2 ≤ (OPENERS role).length := by cases role <;> decide
  unfold vary_opening
  simp only [Bool.or_true, if_true]
  by_cases heq : last role = some ((OPENERS role).getD (i % (OPENERS role).length) "")
  · rw [if_pos heq]
    have hc1c : c1 = (OPENERS role).getD (i % (OPENERS role).length) "" := by
      rw [hl] at heq
      exact Option.some.inj heq
    cases hf : (OPENERS role).filter
        (fun c => c ≠ (OPENERS role).getD (i % (OPENERS role).length) "") with
    | nil => exact absurd hf (filter_ne_ne_nil hnd hlen2 _)
    | cons p ps =>
      refine ⟨(p :: ps).getD (j % (p :: ps).length) "", by simp, ?_⟩
      have hsub : ∀ y, y ∈ p :: ps →
          y ≠ (OPENERS role).getD (i % (OPENERS role).length) "" := by
        intro y hy
        rw [← hf] at hy
        have := (List.mem_filter.mp hy).2
        simpa using this
      intro hcontra
      exact hsub _ (getD_mod_mem (by simp) j) (hcontra.trans hc1c)
  · rw [if_neg heq]
    refine ⟨(OPENERS role).getD (i % (OPENERS role).length) "", by simp, ?_⟩
    intro hcontra
    exact heq (hcontra ▸ hl)

/-- C6.  Two consecutive replacement-branch calls of `vary_opening` for the
same persona sharing one `last_open` table never insert the same opener
twice: for every persona, every pair of texts, every prior table state and
every behaviour of the random source (the replacement branch is forced by
`coin = true`, as in the claim; both opener pools have 8 ≥ 2 entries), the
opener recorded by the second call differs from the one recorded by the
first. -/
theorem vary_opening_no_consecutive_repeat (role : Duo) (t1 t2 : String)
    (last0 : Duo → Option String) (i1 j1 i2 j2 : Nat) :
    ∃ c1 c2 : String,
      (vary_opening t1 role last0 true i1 j1).2 role = some c1 ∧
      (vary_opening t2 role (vary_opening t1 role last0 true i1 j1).2 true i2 j2).2 role
        = some c2 ∧
      c1 ≠ c2 := by
  obtain ⟨c1, hc1, -⟩ := vary_opening_choice_mem t1 role last0 i1 j1
  obtain ⟨c2, hc2, hne⟩ :=
    vary_opening_replacement_new t2 role (vary_opening t1 role last0 true i1 j1).2
      i2 j2 c1 hc1
  exact ⟨c1, c2, hc1, hc2, fun h => hne h.symm⟩


/-! ### Claims C3 and C7: session turn order and transcript line format -/

/-- C3.  A session with round-robin budget `N = 1` produces exactly these 7
script lines, in this order — `Nexus` (host intro), `Reco` (advisor
intro), `Stat` (analyst intro), `Nexus` (topic intro), `Reco` (advisor
turn), `Stat` (analyst turn), `Nexus` (outro) — so the transcript, the
newline-join of these lines, has exactly 7 lines in that persona order. -/
theorem run_podcast_seven_turns_order (topic : String) (r s : Nat → String) :
    runPodcastScript 1 topic r s =
      ["Agent Nexus:" ++ NEXUS_INTRO, "Agent Reco:" ++ RECO_INTRO,
       "Agent Stat:" ++ STAT_INTRO, "Agent Nexus:" ++ topic,
       "Agent Reco:" ++ r 0, "Agent Stat:" ++ s 0,
       "Agent Nexus:" ++ NEXUS_OUTRO] ∧
    (runPodcastScript 1 topic r s).length = 7 :=
  ⟨rfl, rfl⟩

/-- C7, counterexample.  The claim says every transcript line has the
format label, colon, space, utterance.
The code builds each line as `"Agent X:" + text` with no space after the
colon: the first transcript line of any session does not start with
`"Agent Nexus: "`. -/
theorem script_line_no_space_after_colon :
    (runPodcastScript 1 "T" (fun _ => "R") (fun _ => "S")).head? =
      some ("Agent Nexus:" ++ NEXUS_INTRO) ∧
    ("Agent Nexus: ".data.isPrefixOf ("Agent Nexus:" ++ NEXUS_INTRO).data) = false ∧
    ("Agent Nexus:".data.isPrefixOf ("Agent Nexus:" ++ NEXUS_INTRO).data) = true := by
  exact ⟨rfl, by decide, by decide⟩

/-- C7, amended.  Every line of the transcript artifact has the format
label-colon-text: the persona label, a colon, then
immediately the utterance (no space) — with one line per turn, in turn
order. -/
theorem script_lines_label_colon_text (n : Nat) (topic : String) (r s : Nat → String) :
    runPodcastScript n topic r s =
      (scriptTurns n topic r s).map (fun pt => personaLabel pt.1 ++ ":" ++ pt.2) := by
  unfold runPodcastScript scriptTurns
  rw [List.map_append, List.map_append, List.map_flatMap]
  rfl


/-! ### Claim C4: `write_master` format mismatch -/

theorem collectFrames_first_bad (fs : String → Option WavFile) (rate : Nat) :
    ∀ (segments : List String), (∀ seg ∈ segments, fs seg ≠ none) →
    ∀ b, segments.find? (isBadSegment fs rate) = some b →
    collectFrames fs rate segments = .error ("Segment format mismatch: " ++ b) := by
  intro segments
  induction segments with
  | nil => intro _ b hb; cases hb
  | cons seg rest ih =>
    intro hpres b hb
    cases hfs : fs seg with
    | none => exact absurd hfs (hpres seg (List.mem_cons_self _ _))
    | some w =>
      by_cases hbad : (w.frameRate, w.nchannels, w.sampWidth) ≠ (rate, 1, 2)
      · have hhead : isBadSegment fs rate seg = true := by
          unfold isBadSegment
          rw [hfs]
          exact decide_eq_true hbad
        rw [List.find?_cons_of_pos _ hhead, Option.some.injEq] at hb
        subst hb
        simp only [collectFrames, hfs, if_pos hbad]
      · have hhead : isBadSegment fs rate seg = false := by
          unfold isBadSegment
          rw [hfs]
          exact decide_eq_false hbad
        rw [List.find?_cons_of_neg _ (by simp [hhead])] at hb
        have hrest := ih (fun x hx => hpres x (List.mem_cons_of_mem _ hx)) b hb
        simp only [collectFrames, hfs, if_neg hbad]
        rw [hrest]

/-- C4.  If every segment file exists and some segment's sample format
differs from the required mono/16-bit/`rate` format, `write_master` raises
`RuntimeError("Segment format mismatch: <seg>")` naming the first
offending segment, and the file system is unchanged — in particular, if no
file existed at the destination path before the call, none exists after
the failure (the partially written temporary output is discarded). -/
theorem write_master_mismatch_error (fs : String → Option WavFile)
    (segments : List String) (outPath : String) (rate : Nat)
    (hpres : ∀ seg ∈ segments, fs seg ≠ none)
    (b : String) (hb : segments.find? (isBadSegment fs rate) = some b) :
    (write_master fs segments outPath rate).1 =
      .error ("Segment format mismatch: " ++ b) ∧
    (write_master fs segments outPath rate).2 = fs ∧
    (fs outPath = none → (write_master fs segments outPath rate).2 outPath = none) := by
  have hc := collectFrames_first_bad fs rate segments hpres b hb
  unfold write_master
  rw [hc]
  exact ⟨rfl, rfl, fun h => h⟩

/-- C4, witness: the theorem applied to the two-file example file system,
where `b.wav` has sample rate 22050 instead of 24000. -/
theorem write_master_mismatch_error_witness :
    (write_master wavFsExample ["a.wav", "b.wav"] "out.wav" 24000).1 =
      .error ("Segment format mismatch: " ++ "b.wav") ∧
    (write_master wavFsExample ["a.wav", "b.wav"] "out.wav" 24000).2 = wavFsExample ∧
    (wavFsExample "out.wav" = none →
      (write_master wavFsExample ["a.wav", "b.wav"] "out.wav" 24000).2 "out.wav" = none) :=
  write_master_mismatch_error wavFsExample ["a.wav", "b.wav"] "out.wav" 24000
    (by decide) "b.wav" (by decide)


/-! ### Claim C9: `text_to_ssml` -/

set_option maxRecDepth 8000

example : (⟨emphasize_numbers (" 42.6%y".data)⟩ : String) =
    " <emphasis level=\"moderate\">42.6%</emphasis>y" := by decide
example : (⟨emphasize_numbers ("ASA fell from 7406 to 697".data)⟩ : String) =
    "ASA fell from <emphasis level=\"moderate\">7406</emphasis> to <emphasis level=\"moderate\">697</emphasis>" := by
  decide
example : (⟨emphasize_numbers ("up 42.6% overall".data)⟩ : String) =
    "up 42.6% overall" := by decide
example : (⟨clause_pauses ("a, b".data)⟩ : String) = "a,<break time=\"220ms\"/> b" := by
  decide
example : (⟨clause_pauses ("HOWEVER we act".data)⟩ : String) =
    "However,<break time=\"220ms\"/> we act" := by decide
example : text_to_ssml "Hello" .RECO 0 0 =
    ssmlStyled "en-US-JennyNeural" "cheerful" "-3%" "2%"
      "Hello<break time=\"320ms\"/>" := by decide

theorem inflect_eq (text : String) (role : Persona) (jp jr : Int)
    (hpitch : parseIntAll (removeChar '%'
        (toString (basePitchInt role + jp) ++ "%").data)
      = some (basePitchInt role + jp)) :
    inflect text role jp jr =
      (toString (basePitchInt role + jp + inflectAdj text) ++ "%",
       toString (baseRateInt role + jr) ++ "%") := by
  unfold inflect inflectAdj jitterPct
  have hbp : (parsePct (basePitchStr role).data).getD 0 = basePitchInt role := by
    cases role <;> decide
  have hbr : (parsePct (baseRateStr role).data).getD 0 = baseRateInt role := by
    cases role <;> decide
  rw [hbp, hbr]
  by_cases hq : (pyStrip text.data).getLast? = some '?'
  · simp only [if_pos hq]
    rw [hpitch]
  · simp only [if_neg hq]
    by_cases hhb : hasHoweverBut text = true
    · simp only [hhb, if_true]
      rw [show basePitchInt role + jp + (-2 : Int) = basePitchInt role + jp - 2 from by
        omega]
      rw [hpitch]
    · rw [Bool.not_eq_true] at hhb
      simp only [hhb, Bool.false_eq_true, if_false]
      by_cases hs : hasSurprise text = true
      · simp only [hs, if_true]
        rw [hpitch]
      · rw [Bool.not_eq_true] at hs
        simp only [hs, Bool.false_eq_true, if_false]
        rw [show basePitchInt role + jp + (0 : Int) = basePitchInt role + jp from by omega]

/-- C9, counterexample.  The claim says the markup contains exactly one
voice block for every text; but the text is embedded unescaped, so a text
that itself contains a voice element yields two `<voice` openings (second
conjunct: for a plain text there is exactly one). -/
theorem text_to_ssml_voice_injection :
    countOccur "<voice".data (text_to_ssml voiceInjText .RECO 0 0).data = 2 ∧
    countOccur "<voice".data (text_to_ssml "hi" .RECO 0 0).data = 1 := by
  exact ⟨by decide, by decide⟩

/-- C9, amended.  For every persona, every text and every jitter draw
(pitch jitter in `[-3, 3]`, rate jitter in `[-2, 2]`), the markup is
exactly one instantiation of the fixed voice/prosody template around the
transformed text, with `rate` the integer-percent string `base + jitter`
and `pitch` the integer-percent string `(base + jitter) + adjustment`,
where the single adjustment is chosen by precedence (trailing `?` → +4,
`however`/`but` present → −2, surprise keyword → +3, else 0) and is
applied to the already-jittered pitch.  Because the text is embedded
unescaped, "exactly one voice block" holds only for texts that do not
themselves contain voice/prosody markup (counterexample above). -/
theorem text_to_ssml_characterization (role : Persona) (text : String) (jp jr : Int)
    (hjp1 : -3 ≤ jp) (hjp2 : jp ≤ 3) (hjr1 : -2 ≤ jr) (hjr2 : jr ≤ 2) :
    text_to_ssml text role jp jr =
      ssmlStyled (voiceName role) (styleOf role)
        (toString (baseRateInt role + jr) ++ "%")
        (toString (basePitchInt role + jp + inflectAdj text) ++ "%")
        ((⟨clause_pauses (emphasize_numbers (pyStrip text.data))⟩ : String)
          ++ "<break time=\"320ms\"/>") := by
  have hpitch : parseIntAll (removeChar '%'
      (toString (basePitchInt role + jp) ++ "%").data)
      = some (basePitchInt role + jp) := by
    cases role <;> interval_cases jp <;> decide
  unfold text_to_ssml
  rw [inflect_eq text role jp jr hpitch]

/-- C9, witness: the amended characterization at persona Reco, text
`"hi"`, both jitters 0. -/
theorem text_to_ssml_characterization_witness :
    text_to_ssml "hi" .RECO 0 0 =
      ssmlStyled (voiceName .RECO) (styleOf .RECO)
        (toString (baseRateInt .RECO + 0) ++ "%")
        (toString (basePitchInt .RECO + 0 + inflectAdj "hi") ++ "%")
        ((⟨clause_pauses (emphasize_numbers (pyStrip "hi".data))⟩ : String)
          ++ "<break time=\"320ms\"/>") :=
  text_to_ssml_characterization .RECO "hi" 0 0 (by decide) (by decide) (by decide)
    (by decide)

end Podcast
